import Mathlib

/-!
Shallow embedding of the repository `the-phoenicians-are-coming` (Rust).

Source files: `src/lib.rs` (the core: map parsing, the breadth-first
reachability search and the port-visitation step) and `src/main.rs`
(I/O glue, excluded).

Modelling conventions:
* `i32` coordinates become `Int`; machine casts (`as usize`, `as i32`)
  are modelled exactly as wrap-around (`% 2^64`, centered `% 2^32`).
* `usize` quantities become `Nat`.  Rust `usize` arithmetic overflow
  (which would panic in a debug build) is not modelled; all theorems
  carry well-formedness hypotheses keeping sizes far below `2^64`.
* Rust `Vec` indexing panics out of bounds.  In the step operation the
  only unguarded index whose failure is reachable is the read of the
  current cell (line 72 of `lib.rs`); it is modelled with `List.get?`
  and an explicit panic outcome.  Every other index in the search loop
  is guarded by the coordinate bounds check of the source; those reads
  are modelled with `List.getD` (the default is never read under the
  well-formedness hypotheses carried by the theorems).
* `unreachable!` and `unwrap` panics are modelled as explicit `panic`
  outcomes (`StepResult.panic`, `ParseResult.panic`).
* The `while let Some(..) = queue.pop_back()` loop is structurally
  recursive on an explicit fuel argument; `next` supplies fuel
  `w*h + 1`, an upper bound on the number of iterations (each
  iteration pops one element and every enqueue marks an unvisited cell
  visited, so the measure `unvisited cells + queue length` decreases).
-/

namespace Phoenicians

/-- `z as usize` for `z : i32` on a 64-bit target: sign-extend and
reinterpret, i.e. reduce modulo `2^64`. -/
def usizeCast (z : Int) : Nat := (z % (2 : Int) ^ 64).toNat

/-- `n as i32` for `n : usize`: truncate to the low 32 bits and
reinterpret as a signed 32-bit value. -/
def i32OfUsize (n : Nat) : Int :=
  let m : Nat := n % 2 ^ 32
  if m < 2 ^ 31 then (m : Int) else (m : Int) - 2 ^ 32

/-- `struct Pos(i32, i32)`: `x` is the column (field `0`), `y` the row
(field `1`). -/
structure Pos where
  x : Int
  y : Int
deriving DecidableEq, Repr

/-- `Pos::to_index`: `self.1 as usize * map_size.0 + self.0 as usize`.
`ms.1` models the Rust field `map_size.0` and `ms.2` models
`map_size.1`. -/
def Pos.toIndex (p : Pos) (ms : Nat × Nat) : Nat :=
  usizeCast p.y * ms.1 + usizeCast p.x

/-- `enum Direction { North, South, East, West }`. -/
inductive Direction where
  | North
  | South
  | East
  | West
deriving DecidableEq, Repr

/-- `Direction::to_pos`. -/
def Direction.toPos (d : Direction) (p : Pos) : Pos :=
  match d with
  | .North => ⟨p.x, p.y + 1⟩
  | .South => ⟨p.x, p.y - 1⟩
  | .East => ⟨p.x + 1, p.y⟩
  | .West => ⟨p.x - 1, p.y⟩

/-- The fixed direction array iterated by the neighbour loop
(lines 99–104 of `lib.rs`). -/
def directions : List Direction := [.North, .South, .East, .West]

/-- `enum WorldMapNode { Water, Land, Port(usize) }`. -/
inductive WorldMapNode where
  | Water
  | Land
  | Port (id : Nat)
deriving DecidableEq, Repr

/-- `struct PhoenicianTrader`. -/
structure PhoenicianTrader where
  current_port : Pos
  first_port : Pos
  left_ports : List Pos
  world_map : List WorldMapNode
  map_size : Nat × Nat
  fuel_cost : Nat
deriving DecidableEq, Repr

/-- Outcome of one call to `PhoenicianTrader::next` (the `Iterator`
implementation).  `yield c t` models `Some(c)` returned with the
mutated receiver `t`; `done t` models `None` returned with receiver
`t`; `panic` models reaching an `unreachable!` branch. -/
inductive StepResult where
  | panic
  | done (t : PhoenicianTrader)
  | yield (c : Nat) (t : PhoenicianTrader)
deriving DecidableEq, Repr

/-- Guarded map read used inside the search loop (lines 83 and 113 of
`lib.rs`).  Every position read there has passed the coordinate bounds
check (or is the source, whose index was validated by the read of the
current cell), so under the well-formedness hypotheses of the theorems
the `.Land` default is never returned for an in-bounds position. -/
def nodeGetD (wm : List WorldMapNode) (ms : Nat × Nat) (p : Pos) : WorldMapNode :=
  wm.getD (p.toIndex ms) .Land

/-- Guarded visited-array read (`visited[idx].is_none()`, line 117).
The `some 0` default for an out-of-range index makes the cell count as
visited, so nothing is pushed; in-range behaviour is exact. -/
def visitedGetD (v : List (Option Nat)) (i : Nat) : Option Nat :=
  v.getD i (some 0)

/-- One neighbour of the body of the `for direction in ...` loop
(lines 99–121): bounds check, land check, visited check, then mark and
enqueue with distance `d1`.  The queue is kept in pop order: Rust's
`push_front`/`pop_back` pair is a FIFO, modelled as append-at-tail /
pop-at-head. -/
def pushStep (wm : List WorldMapNode) (ms : Nat × Nat) (d1 : Nat)
    (st : List (Option Nat) × List (Pos × Nat)) (nb : Pos) :
    List (Option Nat) × List (Pos × Nat) :=
  if nb.x < 0 ∨ nb.y < 0 ∨ nb.x ≥ i32OfUsize ms.1 ∨ nb.y ≥ i32OfUsize ms.2 then st
  else
    match nodeGetD wm ms nb with
    | .Land => st
    | _ =>
      if (visitedGetD st.1 (nb.toIndex ms)).isNone then
        (st.1.set (nb.toIndex ms) (some d1), st.2 ++ [(nb, d1)])
      else st

/-- The four neighbour positions of `p`, in the iteration order of the
direction array. -/
def nbrsOf (p : Pos) : List Pos := directions.map (fun d => d.toPos p)

/-- The whole neighbour loop for one popped node. -/
def expand (wm : List WorldMapNode) (ms : Nat × Nat)
    (visited : List (Option Nat)) (queue : List (Pos × Nat))
    (node : Pos) (dist : Nat) : List (Option Nat) × List (Pos × Nat) :=
  (nbrsOf node).foldl (pushStep wm ms (dist + 1)) (visited, queue)

/-- Final values of the loop-local state of `next`: the visited array,
the collected `ports` vector, the loop-local clone `left_ports` and
the receiver field `self.left_ports` (named `leftSelf`).  Rust drops
the first three at the end of the loop; returning them is proof
instrumentation only — `next` reads only `ports` and `leftSelf`. -/
structure BfsOut where
  visited : List (Option Nat)
  ports : List (Pos × Nat)
  leftLocal : List Pos
  leftSelf : List Pos
deriving DecidableEq, Repr

/-- The port-collection step at the head of each loop iteration
(lines 83–93): a strictly-higher port is appended to `ports`; at the
first port it is also pushed onto `self.left_ports`, otherwise it is
retained away from the loop-local clone. -/
def collect (wm : List WorldMapNode) (ms : Nat × Nat) (cur first : Pos) (curId : Nat)
    (node : Pos) (dist : Nat) (ports : List (Pos × Nat)) (ll ls : List Pos) :
    List (Pos × Nat) × List Pos × List Pos :=
  match nodeGetD wm ms node with
  | .Port pid =>
    if pid > curId then
      (ports ++ [(node, dist)],
        (if cur = first then ll else ll.filter (fun q => q ≠ node)),
        (if cur = first then ls ++ [node] else ls))
    else (ports, ll, ls)
  | _ => (ports, ll, ls)

/-- The `while let Some(PosWithDistance(node, distance)) = queue.pop_back()`
loop of `next` (lines 82–122): pop, collect a strictly-higher port and
update the two port bookkeeping lists, break early when the loop-local
list is empty away from the first port, otherwise expand the four
neighbours.  Structural recursion on `fuel`; with fuel at least
`unvisited + queue length` the zero-fuel branch is unreachable. -/
def bfsLoop (wm : List WorldMapNode) (ms : Nat × Nat) (cur first : Pos) (curId : Nat) :
    Nat → List (Option Nat) → List (Pos × Nat) → List (Pos × Nat) → List Pos → List Pos → BfsOut
  | 0, visited, _queue, ports, ll, ls => ⟨visited, ports, ll, ls⟩
  | _ + 1, visited, [], ports, ll, ls => ⟨visited, ports, ll, ls⟩
  | fuel + 1, visited, (node, dist) :: rest, ports, ll, ls =>
    let c := collect wm ms cur first curId node dist ports ll ls
    if c.2.1 = [] ∧ cur ≠ first then
      ⟨visited, c.1, c.2.1, c.2.2⟩
    else
      let vq := expand wm ms visited rest node dist
      bfsLoop wm ms cur first curId fuel vq.1 vq.2 c.1 c.2.1 c.2.2

/-- The key computations of the two selection closures (lines 126–129
and 139–142): read each collected position's port id, panicking
(`none`) if some collected cell is not a port. -/
def keyed? (wm : List WorldMapNode) (ms : Nat × Nat) :
    List (Pos × Nat) → Option (List (Nat × Pos × Nat))
  | [] => some []
  | (p, d) :: rest =>
    match wm.get? (p.toIndex ms) with
    | some (.Port j) => (keyed? wm ms rest).map (fun l => (j, p, d) :: l)
    | _ => none

/-- `Iterator::min_by_key`: the first element with minimal key. -/
def minByKeyFirst (key : α → Nat) : List α → Option α
  | [] => none
  | x :: rest =>
    match minByKeyFirst key rest with
    | none => some x
    | some b => if key b < key x then some b else some x

/-- `Iterator::max_by_key`: the last element with maximal key. -/
def maxByKeyLast (key : α → Nat) : List α → Option α
  | [] => none
  | x :: rest =>
    match maxByKeyLast key rest with
    | none => some x
    | some b => if key x > key b then some x else some b

/-- Lines 138–153 of `next`: select the candidate with the smallest
port id, remove it from `self.left_ports`, add its distance to the
fuel cost, move there, and yield the new cumulative cost. -/
def selectMin (t2 : PhoenicianTrader) (keyed : List (Nat × Pos × Nat)) : StepResult :=
  match minByKeyFirst (fun x => x.1) keyed with
  | none => .done t2
  | some (_, port, dist) =>
    .yield (t2.fuel_cost + dist)
      { t2 with
        left_ports := t2.left_ports.filter (fun q => q ≠ port),
        fuel_cost := t2.fuel_cost + dist,
        current_port := port }

/-- The full search of one `next` call: fresh visited array with the
current cell at distance `0`, a one-element queue, empty `ports`, the
loop-local clone of `left_ports` and `self.left_ports` itself, with
fuel `w*h + 1` (an upper bound on the iteration count). -/
def bfsOutOf (t : PhoenicianTrader) (curId : Nat) : BfsOut :=
  bfsLoop t.world_map t.map_size t.current_port t.first_port curId
    (t.map_size.1 * t.map_size.2 + 1)
    ((List.replicate (t.map_size.1 * t.map_size.2) (none : Option Nat)).set
      (t.current_port.toIndex t.map_size) (some 0))
    [(t.current_port, 0)] [] t.left_ports t.left_ports

/-- `PhoenicianTrader::next` (lines 66–154).  Reads the current cell
(panicking unless it is a port, exactly as the `unreachable!` at
line 74 and the out-of-bounds indexing panic), runs the search loop,
then applies the return-leg rule (lines 124–136) and the minimal-id
selection (lines 138–153). -/
def PhoenicianTrader.next (t : PhoenicianTrader) : StepResult :=
  match t.world_map.get? (t.current_port.toIndex t.map_size) with
  | some (.Port curId) =>
    let out := bfsOutOf t curId
    let t1 := { t with left_ports := out.leftSelf }
    match keyed? t.world_map t.map_size out.ports with
    | none => .panic
    | some keyed =>
      if t1.first_port = t1.current_port then
        match maxByKeyLast (fun x => x.1) keyed with
        | none => .done t1
        | some (_, _, dmax) => selectMin { t1 with fuel_cost := t1.fuel_cost + dmax } keyed
      else selectMin t1 keyed
  | _ => .panic

/-- Comparator for the refinement claim, following the spec's words:
the same step, but with a search that "runs to exhaustion and collects
every reachable higher-id port" — i.e. the loop of `bfsLoop` with the
early-break test removed and everything else unchanged. -/
def bfsLoopExh (wm : List WorldMapNode) (ms : Nat × Nat) (cur first : Pos) (curId : Nat) :
    Nat → List (Option Nat) → List (Pos × Nat) → List (Pos × Nat) → List Pos → List Pos → BfsOut
  | 0, visited, _queue, ports, ll, ls => ⟨visited, ports, ll, ls⟩
  | _ + 1, visited, [], ports, ll, ls => ⟨visited, ports, ll, ls⟩
  | fuel + 1, visited, (node, dist) :: rest, ports, ll, ls =>
    let c := collect wm ms cur first curId node dist ports ll ls
    let vq := expand wm ms visited rest node dist
    bfsLoopExh wm ms cur first curId fuel vq.1 vq.2 c.1 c.2.1 c.2.2

/-- The step operation whose search runs to exhaustion (the spec-side
reference for the refinement claim); identical to `next` except that
it uses `bfsLoopExh`. -/
def bfsOutExhOf (t : PhoenicianTrader) (curId : Nat) : BfsOut :=
  bfsLoopExh t.world_map t.map_size t.current_port t.first_port curId
    (t.map_size.1 * t.map_size.2 + 1)
    ((List.replicate (t.map_size.1 * t.map_size.2) (none : Option Nat)).set
      (t.current_port.toIndex t.map_size) (some 0))
    [(t.current_port, 0)] [] t.left_ports t.left_ports

def PhoenicianTrader.nextExhaustive (t : PhoenicianTrader) : StepResult :=
  match t.world_map.get? (t.current_port.toIndex t.map_size) with
  | some (.Port curId) =>
    let out := bfsOutExhOf t curId
    let t1 := { t with left_ports := out.leftSelf }
    match keyed? t.world_map t.map_size out.ports with
    | none => .panic
    | some keyed =>
      if t1.first_port = t1.current_port then
        match maxByKeyLast (fun x => x.1) keyed with
        | none => .done t1
        | some (_, _, dmax) => selectMin { t1 with fuel_cost := t1.fuel_cost + dmax } keyed
      else selectMin t1 keyed
  | _ => .panic

/-! ### Parsing (`impl FromStr for PhoenicianTrader`, lines 157–204) -/

/-- Outcome of `PhoenicianTrader::from_str`.  The Rust signature is
`Result<Self, anyhow::Error>`; `err` models returning the `Err`
variant (whose payload is irrelevant here) and `panic` models an
`unwrap`/`unreachable!` abort. -/
inductive ParseResult where
  | panic
  | err
  | ok (t : PhoenicianTrader)
deriving DecidableEq, Repr

/-- Rust `char::is_whitespace`, restricted to the ASCII range (the
Unicode `White_Space` code points above `U+007F` are not modelled;
no claim exercises them). -/
def isRustWs (c : Char) : Bool :=
  c = ' ' ∨ c = '\t' ∨ c = '\n' ∨ c = '\r' ∨ c = '\x0b' ∨ c = '\x0c'

/-- `str::trim` on a list of characters. -/
def trimChars (l : List Char) : List Char :=
  ((l.dropWhile isRustWs).reverse.dropWhile isRustWs).reverse

/-- Split at every `'\n'`; always returns at least one piece. -/
def splitNl : List Char → List (List Char)
  | [] => [[]]
  | c :: rest =>
    if c = '\n' then [] :: splitNl rest
    else
      match splitNl rest with
      | [] => [[c]]
      | piece :: pieces => (c :: piece) :: pieces

/-- Drop one trailing `'\r'` (for a piece that was terminated by `'\n'`,
i.e. a `"\r\n"` line ending). -/
def stripCr (l : List Char) : List Char :=
  if l.getLast? = some '\r' then l.dropLast else l

/-- `str::lines`: split at `'\n'`, strip a `'\r'` from every piece that
was followed by a `'\n'`, and drop the final piece when it is empty
(so a trailing line terminator produces no extra line and `""` has no
lines). -/
def rustLines (l : List Char) : List (List Char) :=
  let parts := splitNl l
  let parts := (parts.dropLast.map stripCr) ++ [parts.getLastD []]
  if parts.getLast? = some [] then parts.dropLast else parts

/-- `str::split_once(' ')`: split at the first space, if any. -/
def splitOnceSpace : List Char → Option (List Char × List Char)
  | [] => none
  | c :: rest =>
    if c = ' ' then some ([], rest)
    else (splitOnceSpace rest).map (fun pr => (c :: pr.1, pr.2))

/-- `str::parse::<usize>` on the digits after an optional `'+'`. -/
def parseDigits : List Char → Option Nat
  | [] => none
  | l =>
    if l.all (fun c => '0' ≤ c ∧ c ≤ '9') then
      let v := l.foldl (fun acc c => acc * 10 + (c.toNat - '0'.toNat)) 0
      if v < 2 ^ 64 then some v else none
    else none

/-- `str::parse::<usize>`: optional leading `'+'`, then at least one
decimal digit, value below `2^64`. -/
def parseUsize : List Char → Option Nat
  | [] => none
  | '+' :: rest => parseDigits rest
  | l => parseDigits l

/-- The header computation of `from_str` (lines 165–171): trim the
first line, split at the first space into `(x, y)`, and produce
`map_size = (y.parse, x.parse)` — note the swap. -/
def headerParse (l : List Char) : Option (Nat × Nat) :=
  match splitOnceSpace (trimChars l) with
  | none => none
  | some (xs, ys) =>
    match parseUsize ys, parseUsize xs with
    | some a, some b => some (a, b)
    | _, _ => none

/-- One map character (lines 177–189): `'.'` water, `'*'` land, a
decimal digit a port; anything else is the `unreachable!("Invalid
character")`. -/
def charNode (c : Char) : Option WorldMapNode :=
  if c = '.' then some .Water
  else if c = '*' then some .Land
  else if '0' ≤ c ∧ c ≤ '9' then some (.Port (c.toNat - '0'.toNat))
  else none

/-- One trimmed grid row at row index `y`, starting at column `x`:
the cells in order and the ports (position, id) in scan order. -/
def parseRow (y : Nat) : Nat → List Char → Option (List WorldMapNode × List (Pos × Nat))
  | _, [] => some ([], [])
  | x, c :: rest =>
    match charNode c with
    | none => none
    | some nd =>
      (parseRow y (x + 1) rest).map fun pr =>
        (nd :: pr.1,
          match nd with
          | .Port d => (⟨(x : Int), (y : Int)⟩, d) :: pr.2
          | _ => pr.2)

/-- The grid loop of `from_str` (lines 173–191): rows after the header
in order, each trimmed, cells appended to one flat vector. -/
def parseGrid (y : Nat) : List (List Char) → Option (List WorldMapNode × List (Pos × Nat))
  | [] => some ([], [])
  | line :: rest =>
    match parseRow y 0 (trimChars line) with
    | none => none
    | some (ns, ps) =>
      (parseGrid (y + 1) rest).map fun pr => (ns ++ pr.1, ps ++ pr.2)

/-- `PhoenicianTrader::from_str`.  Every failure (`unwrap` on a missing
or unparsable header, `unreachable!` on a foreign character, `unwrap`
on an empty port list) is a panic; the function never builds the `Err`
variant. -/
def fromStr (s : String) : ParseResult :=
  match rustLines s.data with
  | [] => .panic
  | header :: rest =>
    match headerParse header with
    | none => .panic
    | some ms =>
      match parseGrid 0 rest with
      | none => .panic
      | some (wm, ports) =>
        match minByKeyFirst (fun pr => pr.2) ports with
        | none => .panic
        | some (pos, _) =>
          .ok
            { current_port := pos
              first_port := pos
              left_ports := []
              world_map := wm
              map_size := ms
              fuel_cost := 0 }

/-! ### Mathematical layer: grid reachability and shortest distances -/

/-- `p` lies inside the `[0, ms.1) × [0, ms.2)` grid rectangle (the
idealised reading of the bounds check of lines 107–111; it coincides
with the machine check whenever both dimensions are below `2^31`). -/
def InBoundsP (ms : Nat × Nat) (p : Pos) : Prop :=
  0 ≤ p.x ∧ p.x < (ms.1 : Int) ∧ 0 ≤ p.y ∧ p.y < (ms.2 : Int)

instance (ms : Nat × Nat) (p : Pos) : Decidable (InBoundsP ms p) := by
  unfold InBoundsP; infer_instance

/-- A cell the search may step onto: in bounds and not land. -/
def PassableP (wm : List WorldMapNode) (ms : Nat × Nat) (p : Pos) : Prop :=
  InBoundsP ms p ∧ nodeGetD wm ms p ≠ .Land

instance (wm : List WorldMapNode) (ms : Nat × Nat) (p : Pos) :
    Decidable (PassableP wm ms p) := by
  unfold PassableP; infer_instance

/-- `ReachN wm ms src p n`: there is a walk of exactly `n` grid steps
from `src` to `p`, each step moving to one of the four cardinal
neighbours and landing on a passable cell (the source cell itself is
not constrained, exactly as the search expands the source without
checking it). -/
inductive ReachN (wm : List WorldMapNode) (ms : Nat × Nat) (src : Pos) : Pos → Nat → Prop where
  | refl : ReachN wm ms src src 0
  | step {p q : Pos} {n : Nat} : ReachN wm ms src p n → q ∈ nbrsOf p →
      PassableP wm ms q → ReachN wm ms src q (n + 1)

/-- `p` is reachable from `src`. -/
def Reachable (wm : List WorldMapNode) (ms : Nat × Nat) (src p : Pos) : Prop :=
  ∃ n, ReachN wm ms src p n

/-- `d` is the minimum step-distance from `src` to `p`. -/
def IsShortest (wm : List WorldMapNode) (ms : Nat × Nat) (src p : Pos) (d : Nat) : Prop :=
  ReachN wm ms src p d ∧ ∀ m, ReachN wm ms src p m → d ≤ m

/-- The trader states produced by zero or more successful steps from
`t0` ("steps taken" in a traversal that starts at `t0`). -/
inductive RunState (t0 : PhoenicianTrader) : PhoenicianTrader → Prop where
  | init : RunState t0 t0
  | step {t : PhoenicianTrader} {c : Nat} {t' : PhoenicianTrader} :
      RunState t0 t → t.next = .yield c t' → RunState t0 t'

/-- Well-formed search geometry for a trader: the flat map has exactly
`map_size.0 * map_size.1` cells and both dimensions are small enough
for the `as i32` casts in the bounds check to be exact. -/
def WFGeom (t : PhoenicianTrader) : Prop :=
  t.world_map.length = t.map_size.1 * t.map_size.2 ∧
    t.map_size.1 < 2 ^ 31 ∧ t.map_size.2 < 2 ^ 31

instance (t : PhoenicianTrader) : Decidable (WFGeom t) := by
  unfold WFGeom; infer_instance

/-- `true` exactly on `Port _` cells. -/
def isPortB : WorldMapNode → Bool
  | .Port _ => true
  | _ => false

/-- Port ids are unique on the map (the spec's data-integrity
assumption: "ids are meant to be unique"): two cells holding the same
port value are the same cell. -/
def UniquePortIds (wm : List WorldMapNode) : Prop :=
  ∀ i j, i < wm.length → j < wm.length →
    wm.getD i .Land = wm.getD j .Land → isPortB (wm.getD i .Land) = true → i = j

instance (wm : List WorldMapNode) : Decidable (UniquePortIds wm) :=
  decidable_of_iff
    (∀ i < wm.length, ∀ j < wm.length,
      wm.getD i .Land = wm.getD j .Land → isPortB (wm.getD i .Land) = true → i = j)
    (by constructor
        · intro h i j hi hj; exact h i hi j hj
        · intro h i hi j hj; exact h i j hi hj)

/-- A legitimately initialised trader: at the first (current) port
with the lap bookkeeping empty, on a well-formed map. -/
def InitState (t : PhoenicianTrader) : Prop :=
  t.current_port = t.first_port ∧ t.left_ports = [] ∧
    InBoundsP t.map_size t.current_port ∧
    (∃ i, nodeGetD t.world_map t.map_size t.current_port = .Port i) ∧
    WFGeom t ∧ UniquePortIds t.world_map

/-! ### Proof-layer definitions: views, invariant shapes, sample states -/

/-- Position-indexed view of the visited array. -/
def vAt (v : List (Option Nat)) (ms : Nat × Nat) (p : Pos) : Option Nat :=
  v.getD (p.toIndex ms) none

/-- Number of unvisited cells; together with the queue length this is
the loop measure. -/
def countNone (v : List (Option Nat)) : Nat := v.countP (fun o => o.isNone)

/-- Distances in the queue are sorted and the whole queue lies within
one unit of its head: the fundamental breadth-first frontier shape. -/
def QWin : List (Pos × Nat) → Prop
  | [] => True
  | (_, d) :: rest => (∀ e ∈ rest.map Prod.snd, d ≤ e ∧ e ≤ d + 1) ∧ QWin rest

/-- Everything the invariants need about one run of the neighbour
loop: the queue grows by a block `pushed` of distance-`d1` entries,
exactly the previously unvisited passable neighbours processed, and
the visited array gains exactly those entries. -/
structure ExpandSpec (wm : List WorldMapNode) (ms : Nat × Nat) (d1 : Nat) (nbl : List Pos)
    (v0 v' : List (Option Nat)) (pushed : List (Pos × Nat)) : Prop where
  lenEq : v'.length = v0.length
  mono : ∀ i d, v0.getD i none = some d → v'.getD i none = some d
  newSome : ∀ i e, v0.getD i none = none → v'.getD i none = some e →
    e = d1 ∧ ∃ x ∈ pushed, x.1.toIndex ms = i
  pfacts : ∀ x ∈ pushed, x.2 = d1 ∧ x.1 ∈ nbl ∧ InBoundsP ms x.1 ∧
    nodeGetD wm ms x.1 ≠ .Land ∧ vAt v0 ms x.1 = none ∧ vAt v' ms x.1 = some d1
  pnodup : (pushed.map Prod.fst).Nodup
  cover : ∀ nb ∈ nbl, PassableP wm ms nb → vAt v' ms nb ≠ none
  count : countNone v0 = countNone v' + pushed.length

/-- The invariant carried through the search loop of `next`, tying the
visited array, queue and collected ports to true grid reachability. -/
structure Inv (wm : List WorldMapNode) (ms : Nat × Nat) (src : Pos) (curId : Nat)
    (visited : List (Option Nat)) (queue : List (Pos × Nat))
    (ports : List (Pos × Nat)) : Prop where
  hvLen : visited.length = ms.1 * ms.2
  hms1 : ms.1 < 2 ^ 31
  hms2 : ms.2 < 2 ^ 31
  hsrcB : InBoundsP ms src
  hsrc0 : vAt visited ms src = some 0
  hqB : ∀ pd ∈ queue, InBoundsP ms pd.1
  hq : ∀ pd ∈ queue, vAt visited ms pd.1 = some pd.2
  hwin : QWin queue
  hsound : ∀ p d, InBoundsP ms p → vAt visited ms p = some d → IsShortest wm ms src p d
  hclos : ∀ p d, InBoundsP ms p → vAt visited ms p = some d →
    (p, d) ∈ queue ∨ ∀ nb ∈ nbrsOf p, PassableP wm ms nb → vAt visited ms nb ≠ none
  hI6 : ∀ p d, InBoundsP ms p → vAt visited ms p = some d → ∀ qd ∈ queue, d ≤ qd.2 + 1
  hIdx : ∀ p d, InBoundsP ms p → vAt visited ms p = some d →
    (p, d) ∈ queue ∨ (∀ j, nodeGetD wm ms p = .Port j → j > curId → ∃ e, (p, e) ∈ ports)
  hNodupQ : (queue.map Prod.fst).Nodup
  hPQdisj : ∀ pd ∈ ports, ∀ qd ∈ queue, pd.1 ≠ qd.1
  hports : ∀ pd ∈ ports, InBoundsP ms pd.1 ∧ vAt visited ms pd.1 = some pd.2 ∧
    ∃ j, nodeGetD wm ms pd.1 = .Port j ∧ j > curId

/-- The port id read by the selection closures. -/
def pidAt (wm : List WorldMapNode) (ms : Nat × Nat) (p : Pos) : Nat :=
  match wm.get? (p.toIndex ms) with
  | some (.Port j) => j
  | _ => 0

/-- A step-invariant "good" trader state: well-formed geometry, unique
port ids, a port under the vessel and under the first position, and
the lap bookkeeping either fresh (at the first port, nothing left) or
exact (away from it, `left_ports` is precisely the reachable
strictly-higher ports). -/
structure GoodT (t : PhoenicianTrader) (cid : Nat) : Prop where
  wf : WFGeom t
  uniq : UniquePortIds t.world_map
  curB : InBoundsP t.map_size t.current_port
  curPort : nodeGetD t.world_map t.map_size t.current_port = .Port cid
  firstB : InBoundsP t.map_size t.first_port
  firstPort : ∃ fid, nodeGetD t.world_map t.map_size t.first_port = .Port fid ∧ fid ≤ cid
  lap : (t.current_port = t.first_port ∧ t.left_ports = []) ∨
    (t.current_port ≠ t.first_port ∧
      (∀ p ∈ t.left_ports, InBoundsP t.map_size p ∧
        ∃ j, nodeGetD t.world_map t.map_size p = .Port j ∧ j > cid ∧
          Reachable t.world_map t.map_size t.current_port p) ∧
      (∀ q j, InBoundsP t.map_size q → nodeGetD t.world_map t.map_size q = .Port j →
        j > cid → Reachable t.world_map t.map_size t.current_port q → q ∈ t.left_ports))

/-- The search loop of `next` in isolation, as a function of map and
source: the loop run in the configuration in which the break test is
inert (`cur = first`, the loop-local list empty), with a fresh visited
array and a singleton queue, exactly as `next` sets it up; `fuel`
counts loop iterations. -/
def searchFromFuel (wm : List WorldMapNode) (ms : Nat × Nat) (src : Pos)
    (curId fuel : Nat) : BfsOut :=
  bfsLoop wm ms src src curId fuel
    ((List.replicate (ms.1 * ms.2) (none : Option Nat)).set (src.toIndex ms) (some 0))
    [(src, 0)] [] [] []

/-- The search with the fuel `next` gives it (`w*h + 1`, enough to
drain the queue). -/
def searchFrom (wm : List WorldMapNode) (ms : Nat × Nat) (src : Pos) (curId : Nat) : BfsOut :=
  searchFromFuel wm ms src curId (ms.1 * ms.2 + 1)

/-- Expand a run-length encoded character row. -/
def rleRow (l : List (Nat × Char)) : List Char :=
  l.foldr (fun p acc => List.replicate p.1 p.2 ++ acc) []

/-- The fifteen grid rows of the reference fixture of the repository's
test `test_go_to_next_port` (each with its 12-character indentation),
run-length encoded. -/
def fixtureRows : List (List (Nat × Char)) := [
  [(12, ' '), (23, '.'), (16, '*'), (41, '.')],
  [(12, ' '), (3, '.'), (12, '*'), (10, '.'), (12, '*'), (43, '.')],
  [(12, ' '), (4, '.'), (15, '*'), (8, '.'), (7, '*'), (7, '.'), (9, '*'), (18, '.'), (1, '1'), (6, '*'), (5, '.')],
  [(12, ' '), (4, '.'), (15, '*'), (9, '.'), (2, '*'), (8, '.'), (15, '*'), (14, '.'), (9, '*'), (4, '.')],
  [(12, ' '), (5, '.'), (12, '*'), (21, '.'), (15, '*'), (14, '.'), (9, '*'), (4, '.')],
  [(12, ' '), (8, '.'), (9, '*'), (21, '.'), (15, '*'), (14, '.'), (9, '*'), (4, '.')],
  [(12, ' '), (12, '.'), (5, '*'), (22, '.'), (14, '*'), (15, '.'), (5, '*'), (7, '.')],
  [(12, ' '), (41, '.'), (12, '*'), (27, '.')],
  [(12, ' '), (41, '.'), (12, '*'), (27, '.')],
  [(12, ' '), (2, '*'), (29, '.'), (2, '*'), (1, ','), (7, '.'), (12, '*'), (27, '.')],
  [(12, ' '), (5, '*'), (25, '.'), (4, '*'), (7, '.'), (11, '*'), (28, '.')],
  [(12, ' '), (8, '*'), (23, '.'), (3, '*'), (9, '.'), (8, '*'), (29, '.')],
  [(12, ' '), (15, '*'), (1, '2'), (16, '.'), (1, '*'), (1, ','), (10, '.'), (4, '*'), (32, '.')],
  [(12, ' '), (19, '*'), (61, '.')],
  [(12, ' '), (20, '*'), (60, '.')]]

/-- The raw fixture input: a leading line break, the size-header line,
then the fifteen rows, each preceded by a line break. -/
def fixtureInput : String :=
  String.mk (('\n' :: List.replicate 12 ' ' ++ ('8' :: '0' :: ' ' :: '1' :: '5' :: [])) ++
    (fixtureRows.map (fun r => '\n' :: rleRow r)).flatten)

/-- The trader parsed from the sample text `"1 3\n123"`: three ports
`1 2 3` in a row on a 3×1 all-port grid, starting on port `1`. -/
def sampleTrader : PhoenicianTrader :=
  { current_port := ⟨0, 0⟩, first_port := ⟨0, 0⟩, left_ports := [],
    world_map := [.Port 1, .Port 2, .Port 3], map_size := (3, 1), fuel_cost := 0 }

/-- A 1×1 grid holding only port `1`: no strictly-higher port exists. -/
def oneTrader : PhoenicianTrader :=
  { current_port := ⟨0, 0⟩, first_port := ⟨0, 0⟩, left_ports := [],
    world_map := [.Port 1], map_size := (1, 1), fuel_cost := 0 }

/-! ### Basic lemmas: casts, indexing, visited array -/

theorem usizeCast_of_nonneg {z : Int} (h0 : 0 ≤ z) (h : z < 2 ^ 64) :
    usizeCast z = z.toNat := by
  unfold usizeCast
  rw [Int.emod_eq_of_lt h0 (by exact_mod_cast h)]

theorem i32OfUsize_small {n : Nat} (h : n < 2 ^ 31) : i32OfUsize n = n := by
  unfold i32OfUsize
  have hm : n % 2 ^ 32 = n := Nat.mod_eq_of_lt (by omega)
  simp only [hm]
  rw [if_pos (by exact_mod_cast h)]

theorem toIndex_eq {ms : Nat × Nat} {p : Pos} (h1 : ms.1 < 2 ^ 31) (h2 : ms.2 < 2 ^ 31)
    (hb : InBoundsP ms p) : p.toIndex ms = p.y.toNat * ms.1 + p.x.toNat := by
  obtain ⟨hx0, hx1, hy0, hy1⟩ := hb
  unfold Pos.toIndex
  rw [usizeCast_of_nonneg hx0 (by omega), usizeCast_of_nonneg hy0 (by omega)]

theorem toIndex_lt {ms : Nat × Nat} {p : Pos} (h1 : ms.1 < 2 ^ 31) (h2 : ms.2 < 2 ^ 31)
    (hb : InBoundsP ms p) : p.toIndex ms < ms.1 * ms.2 := by
  obtain ⟨hx0, hx1, hy0, hy1⟩ := hb
  rw [toIndex_eq h1 h2 ⟨hx0, hx1, hy0, hy1⟩]
  have hx : p.x.toNat < ms.1 := by omega
  have hy : p.y.toNat < ms.2 := by omega
  calc p.y.toNat * ms.1 + p.x.toNat < p.y.toNat * ms.1 + ms.1 := by omega
    _ = (p.y.toNat + 1) * ms.1 := by ring
    _ ≤ ms.2 * ms.1 := Nat.mul_le_mul_right _ (by omega)
    _ = ms.1 * ms.2 := Nat.mul_comm _ _

theorem toIndex_inj {ms : Nat × Nat} {p q : Pos} (h1 : ms.1 < 2 ^ 31) (h2 : ms.2 < 2 ^ 31)
    (hp : InBoundsP ms p) (hq : InBoundsP ms q) (h : p.toIndex ms = q.toIndex ms) : p = q := by
  obtain ⟨hpx0, hpx1, hpy0, hpy1⟩ := hp
  obtain ⟨hqx0, hqx1, hqy0, hqy1⟩ := hq
  rw [toIndex_eq h1 h2 ⟨hpx0, hpx1, hpy0, hpy1⟩, toIndex_eq h1 h2 ⟨hqx0, hqx1, hqy0, hqy1⟩] at h
  have hx : p.x.toNat < ms.1 := by omega
  have hx' : q.x.toNat < ms.1 := by omega
  have hy : p.y.toNat = q.y.toNat := by
    by_contra hne
    rcases Nat.lt_or_ge p.y.toNat q.y.toNat with hlt | hge
    · have : p.y.toNat * ms.1 + p.x.toNat < q.y.toNat * ms.1 + q.x.toNat := by
        calc p.y.toNat * ms.1 + p.x.toNat < (p.y.toNat + 1) * ms.1 := by
              rw [Nat.succ_mul]; omega
          _ ≤ q.y.toNat * ms.1 := Nat.mul_le_mul_right _ hlt
          _ ≤ q.y.toNat * ms.1 + q.x.toNat := Nat.le_add_right _ _
      omega
    · have hlt : q.y.toNat < p.y.toNat := by omega
      have : q.y.toNat * ms.1 + q.x.toNat < p.y.toNat * ms.1 + p.x.toNat := by
        calc q.y.toNat * ms.1 + q.x.toNat < (q.y.toNat + 1) * ms.1 := by
              rw [Nat.succ_mul]; omega
          _ ≤ p.y.toNat * ms.1 := Nat.mul_le_mul_right _ hlt
          _ ≤ p.y.toNat * ms.1 + p.x.toNat := Nat.le_add_right _ _
      omega
  rw [hy] at h
  have ex : p.x.toNat = q.x.toNat := Nat.add_left_cancel h
  have hpx : p.x = q.x := by omega
  have hpy : p.y = q.y := by omega
  cases p; cases q; simp_all

/-- The machine bounds check of the neighbour loop coincides with
`InBoundsP` for sub-`2^31` dimensions. -/
theorem boundsCheck_iff {ms : Nat × Nat} {p : Pos} (h1 : ms.1 < 2 ^ 31) (h2 : ms.2 < 2 ^ 31) :
    ¬(p.x < 0 ∨ p.y < 0 ∨ p.x ≥ i32OfUsize ms.1 ∨ p.y ≥ i32OfUsize ms.2) ↔ InBoundsP ms p := by
  rw [i32OfUsize_small h1, i32OfUsize_small h2]
  unfold InBoundsP
  constructor
  · intro h; push_neg at h; exact ⟨h.1, h.2.2.1, h.2.1, h.2.2.2⟩
  · intro ⟨a, b, c, d⟩; push_neg; exact ⟨a, c, b, d⟩


theorem List.getD_set_self {α : Type} {v : List α} {i : Nat} (h : i < v.length) (a d : α) :
    (v.set i a).getD i d = a := by
  induction v generalizing i with
  | nil => simp at h
  | cons x xs ih =>
    cases i with
    | zero => simp [List.set]
    | succ n =>
      simp only [List.set, List.getD_cons_succ]
      exact ih (by simpa using h)

theorem List.getD_set_ne {α : Type} {v : List α} {i j : Nat} (h : i ≠ j) (a d : α) :
    (v.set i a).getD j d = v.getD j d := by
  induction v generalizing i j with
  | nil => simp [List.set]
  | cons x xs ih =>
    cases i with
    | zero => cases j with
      | zero => exact absurd rfl h
      | succ m => simp [List.set]
    | succ n => cases j with
      | zero => simp [List.set]
      | succ m =>
        simp only [List.set, List.getD_cons_succ]
        exact ih (by omega)

theorem List.set_oob {α : Type} {v : List α} {i : Nat} (h : v.length ≤ i) (a : α) :
    v.set i a = v := by
  induction v generalizing i with
  | nil => simp
  | cons x xs ih =>
    cases i with
    | zero => simp at h
    | succ n => simp only [List.set]; rw [ih (by simpa using h)]


theorem countNone_set_some {v : List (Option Nat)} {i : Nat} (hlen : i < v.length)
    (h : v.getD i none = none) (d : Nat) :
    countNone v = countNone (v.set i (some d)) + 1 := by
  induction v generalizing i with
  | nil => simp at hlen
  | cons x xs ih =>
    cases i with
    | zero =>
      simp only [List.getD_cons_zero] at h
      subst h
      simp [countNone, List.countP_cons]
    | succ n =>
      simp only [List.getD_cons_succ] at h
      have := ih (by simpa using hlen) h
      simp only [List.set, countNone, List.countP_cons] at *
      omega

/-! ### The queue window invariant -/


theorem qwin_const {d1 : Nat} : ∀ {l : List (Pos × Nat)}, (∀ x ∈ l, x.2 = d1) → QWin l
  | [], _ => trivial
  | (p, e) :: rest, h => by
    have he : e = d1 := h (p, e) (List.mem_cons_self _ _)
    refine ⟨?_, qwin_const (fun x hx => h x (List.mem_cons_of_mem _ hx))⟩
    intro f hf
    simp only [List.mem_map] at hf
    obtain ⟨x, hx, hfx⟩ := hf
    have h2 := h x (List.mem_cons_of_mem _ hx)
    rw [← hfx, h2, he]
    omega

theorem qwin_pop_push {d1 : Nat} :
    ∀ {rest pushed : List (Pos × Nat)}, QWin rest →
      (∀ f ∈ rest.map Prod.snd, d1 ≤ f + 1 ∧ f ≤ d1) →
      (∀ x ∈ pushed, x.2 = d1) → QWin (rest ++ pushed)
  | [], pushed, _, _, hp => by simpa using qwin_const hp
  | (q, e) :: rest', pushed, hw, hbnd, hp => by
    obtain ⟨hhead, htail⟩ := hw
    refine ⟨?_, qwin_pop_push htail ?_ hp⟩
    · intro f hf
      simp only [List.append_eq, List.map_append, List.mem_append] at hf
      rcases hf with hf | hf
      · exact hhead f hf
      · simp only [List.mem_map] at hf
        obtain ⟨x, hx, hfx⟩ := hf
        have h2 := hp x hx
        have he : d1 ≤ e + 1 ∧ e ≤ d1 := hbnd e (by simp)
        rw [← hfx, h2]
        omega
    · intro f hf
      exact hbnd f (List.mem_cons_of_mem _ hf)

/-! ### Characterisation of the neighbour-expansion fold -/

theorem getD_default_eq {α : Type} {v : List α} {i : Nat} (h : i < v.length) (d d' : α) :
    v.getD i d = v.getD i d' := by
  induction v generalizing i with
  | nil => simp at h
  | cons x xs ih =>
    cases i with
    | zero => simp
    | succ n => simpa using ih (by simpa using h)

theorem pushStep_spec {wm : List WorldMapNode} {ms : Nat × Nat} {d1 : Nat}
    {v : List (Option Nat)} {q : List (Pos × Nat)} {nb : Pos}
    (h1 : ms.1 < 2 ^ 31) (h2 : ms.2 < 2 ^ 31) (hlen : v.length = ms.1 * ms.2) :
    (pushStep wm ms d1 (v, q) nb = (v, q) ∧
      (¬InBoundsP ms nb ∨ nodeGetD wm ms nb = .Land ∨ vAt v ms nb ≠ none))
    ∨ (InBoundsP ms nb ∧ nodeGetD wm ms nb ≠ .Land ∧ vAt v ms nb = none ∧
        pushStep wm ms d1 (v, q) nb = (v.set (nb.toIndex ms) (some d1), q ++ [(nb, d1)])) := by
  unfold pushStep
  by_cases hb : nb.x < 0 ∨ nb.y < 0 ∨ nb.x ≥ i32OfUsize ms.1 ∨ nb.y ≥ i32OfUsize ms.2
  · exact .inl ⟨if_pos hb, .inl (fun hin => (boundsCheck_iff h1 h2).mpr hin hb)⟩
  · have hin : InBoundsP ms nb := (boundsCheck_iff h1 h2).mp hb
    rw [if_neg hb]
    have hidx : nb.toIndex ms < v.length := hlen ▸ toIndex_lt h1 h2 hin
    have hvg : visitedGetD v (nb.toIndex ms) = vAt v ms nb := getD_default_eq hidx _ _
    cases hnode : nodeGetD wm ms nb with
    | Land => exact .inl ⟨rfl, .inr (.inl rfl)⟩
    | Water =>
      by_cases hv : vAt v ms nb = none
      · refine .inr ⟨hin, by simp [hnode], hv, ?_⟩
        simp only [hvg, hv, Option.isNone_none, if_pos]
      · left
        refine ⟨?_, .inr (.inr hv)⟩
        have : ¬(visitedGetD v (nb.toIndex ms)).isNone := by
          rw [hvg]; simpa using hv
        simp only [this, if_neg, Bool.false_eq_true, not_false_eq_true]
    | Port pid =>
      by_cases hv : vAt v ms nb = none
      · refine .inr ⟨hin, by simp [hnode], hv, ?_⟩
        simp only [hvg, hv, Option.isNone_none, if_pos]
      · left
        refine ⟨?_, .inr (.inr hv)⟩
        have : ¬(visitedGetD v (nb.toIndex ms)).isNone := by
          rw [hvg]; simpa using hv
        simp only [this, if_neg, Bool.false_eq_true, not_false_eq_true]


theorem set_none_of_none {v : List (Option Nat)} {idx i : Nat} {a : Option Nat}
    (h : (v.set idx a).getD i none = none) (ha : a ≠ none) : v.getD i none = none := by
  by_cases hij : idx = i
  · subst hij
    by_cases hlt : idx < v.length
    · rw [List.getD_set_self hlt] at h; exact absurd h ha
    · rwa [List.set_oob (by omega)] at h
  · rwa [List.getD_set_ne hij] at h

theorem expand_spec {wm : List WorldMapNode} {ms : Nat × Nat} {d1 : Nat}
    (h1 : ms.1 < 2 ^ 31) (h2 : ms.2 < 2 ^ 31) :
    ∀ (nbl : List Pos) (v0 : List (Option Nat)) (q0 : List (Pos × Nat)),
      v0.length = ms.1 * ms.2 →
      ∃ v' pushed, nbl.foldl (pushStep wm ms d1) (v0, q0) = (v', q0 ++ pushed) ∧
        ExpandSpec wm ms d1 nbl v0 v' pushed
  | [], v0, q0, _ => by
    refine ⟨v0, [], by simp, ?_⟩
    exact { lenEq := rfl
            mono := fun _ _ h => h
            newSome := fun i e h h' => by rw [h] at h'; exact absurd h' (by simp)
            pfacts := by simp
            pnodup := by simp
            cover := by simp
            count := by simp }
  | nb :: nbl', v0, q0, hlen => by
    rcases @pushStep_spec wm ms d1 v0 q0 nb h1 h2 hlen with
      ⟨heq, hskip⟩ | ⟨hin, hnl, hnone, heq⟩
    · obtain ⟨v', pushed, hfold, hspec⟩ := expand_spec h1 h2 nbl' v0 q0 hlen
      refine ⟨v', pushed, by rw [List.foldl_cons, heq]; exact hfold, ?_⟩
      refine { lenEq := hspec.lenEq, mono := hspec.mono, newSome := hspec.newSome
               pfacts := ?_, pnodup := hspec.pnodup, cover := ?_, count := hspec.count }
      · intro x hx
        obtain ⟨ha, hb', hc, hd, he, hf⟩ := hspec.pfacts x hx
        exact ⟨ha, List.mem_cons_of_mem _ hb', hc, hd, he, hf⟩
      · intro p hp hpass
        rcases List.mem_cons.mp hp with rfl | hp'
        · rcases hskip with h | h | h
          · exact absurd hpass.1 h
          · exact absurd h hpass.2
          · intro hcon
            obtain ⟨e, he⟩ := Option.ne_none_iff_exists'.mp h
            rw [vAt] at hcon
            exact absurd (hspec.mono _ _ he) (by rw [hcon]; simp)
        · exact hspec.cover p hp' hpass
    · set v1 := v0.set (nb.toIndex ms) (some d1) with hv1
      have hidx : nb.toIndex ms < v0.length := hlen ▸ toIndex_lt h1 h2 hin
      have hlen1 : v1.length = ms.1 * ms.2 := by rw [hv1, List.length_set]; exact hlen
      obtain ⟨v', pushed', hfold, hspec⟩ :=
        expand_spec h1 h2 nbl' v1 (q0 ++ [(nb, d1)]) hlen1
      have hv1nb : vAt v1 ms nb = some d1 := by
        rw [hv1]; exact List.getD_set_self hidx _ _
      refine ⟨v', (nb, d1) :: pushed', ?_, ?_⟩
      · rw [List.foldl_cons, heq, hfold, List.append_assoc]
        rfl
      refine { lenEq := ?_, mono := ?_, newSome := ?_, pfacts := ?_, pnodup := ?_
               cover := ?_, count := ?_ }
      · rw [hspec.lenEq, hv1, List.length_set]
      · intro i d hi
        refine hspec.mono i d ?_
        by_cases hij : nb.toIndex ms = i
        · subst hij; rw [vAt] at hnone; rw [hnone] at hi; exact absurd hi (by simp)
        · rw [hv1, List.getD_set_ne hij]; exact hi
      · intro i e hi0 hie
        by_cases hi1 : v1.getD i none = none
        · obtain ⟨he, x, hx, hxi⟩ := hspec.newSome i e hi1 hie
          exact ⟨he, x, List.mem_cons_of_mem _ hx, hxi⟩
        · have hij : nb.toIndex ms = i := by
            by_contra hne
            rw [hv1, List.getD_set_ne hne] at hi1
            exact hi1 hi0
          subst hij
          have : v1.getD (nb.toIndex ms) none = some d1 := List.getD_set_self hidx _ _
          have hve : v'.getD (nb.toIndex ms) none = some d1 := hspec.mono _ _ this
          rw [hve] at hie
          exact ⟨(Option.some_inj.mp hie).symm, (nb, d1), List.mem_cons_self _ _, rfl⟩
      · intro x hx
        rcases List.mem_cons.mp hx with rfl | hx'
        · exact ⟨rfl, List.mem_cons_self _ _, hin, hnl, hnone, hspec.mono _ _ hv1nb⟩
        · obtain ⟨ha, hb', hc, hd, he, hf⟩ := hspec.pfacts x hx'
          refine ⟨ha, List.mem_cons_of_mem _ hb', hc, hd, ?_, hf⟩
          exact set_none_of_none (hv1 ▸ he) (by simp)
      · refine List.Nodup.cons ?_ hspec.pnodup
        intro hmem
        simp only [List.mem_map] at hmem
        obtain ⟨x, hx, hxe⟩ := hmem
        have := (hspec.pfacts x hx).2.2.2.2.1
        rw [hxe] at this
        rw [vAt] at this hv1nb
        rw [this] at hv1nb
        exact absurd hv1nb (by simp)
      · intro p hp hpass
        rcases List.mem_cons.mp hp with rfl | hp'
        · rw [vAt] at hv1nb ⊢
          rw [hspec.mono _ _ hv1nb]
          simp
        · exact hspec.cover p hp' hpass
      · have hc0 : countNone v0 = countNone v1 + 1 :=
          countNone_set_some hidx hnone d1
        have := hspec.count
        simp only [List.length_cons]
        omega

/-! ### Reachability lemmas -/

theorem reachN_zero {wm : List WorldMapNode} {ms : Nat × Nat} {src p : Pos}
    (h : ReachN wm ms src p 0) : p = src := by
  cases h; rfl

theorem reachN_passable_or_src {wm : List WorldMapNode} {ms : Nat × Nat} {src p : Pos} {n : Nat}
    (h : ReachN wm ms src p n) : p = src ∨ PassableP wm ms p := by
  cases h with
  | refl => exact .inl rfl
  | step _ _ hp => exact .inr hp

theorem reachN_trans {wm : List WorldMapNode} {ms : Nat × Nat} {a b c : Pos} {m n : Nat}
    (h1 : ReachN wm ms a b m) (h2 : ReachN wm ms b c n) : ReachN wm ms a c (m + n) := by
  induction h2 with
  | refl => exact h1
  | step _ hn hp ih => exact .step ih hn hp

theorem mem_nbrsOf {p q : Pos} :
    q ∈ nbrsOf p ↔
      q = ⟨p.x, p.y + 1⟩ ∨ q = ⟨p.x, p.y - 1⟩ ∨ q = ⟨p.x + 1, p.y⟩ ∨ q = ⟨p.x - 1, p.y⟩ := by
  simp [nbrsOf, directions, Direction.toPos]

theorem nbrsOf_symm {p q : Pos} (h : q ∈ nbrsOf p) : p ∈ nbrsOf q := by
  rw [mem_nbrsOf] at h ⊢
  obtain ⟨px, py⟩ := p
  rcases h with rfl | rfl | rfl | rfl
  · exact .inr (.inl (by simp))
  · exact .inl (by simp)
  · exact .inr (.inr (.inr (by simp)))
  · exact .inr (.inr (.inl (by simp)))

theorem reachN_symm {wm : List WorldMapNode} {ms : Nat × Nat} {a b : Pos} {n : Nat}
    (h : ReachN wm ms a b n) (ha : PassableP wm ms a) : ReachN wm ms b a n := by
  induction h with
  | refl => exact .refl
  | @step p q k h' hn hp ih =>
    have hpq : ReachN wm ms q p 1 := by
      rcases reachN_passable_or_src h' with rfl | hpp
      · exact .step .refl (nbrsOf_symm hn) ha
      · exact .step .refl (nbrsOf_symm hn) hpp
    have := reachN_trans hpq ih
    rwa [Nat.add_comm] at this

theorem reachable_trans {wm : List WorldMapNode} {ms : Nat × Nat} {a b c : Pos}
    (h1 : Reachable wm ms a b) (h2 : Reachable wm ms b c) : Reachable wm ms a c := by
  obtain ⟨m, hm⟩ := h1; obtain ⟨n, hn⟩ := h2; exact ⟨m + n, reachN_trans hm hn⟩

theorem reachable_symm {wm : List WorldMapNode} {ms : Nat × Nat} {a b : Pos}
    (h : Reachable wm ms a b) (ha : PassableP wm ms a) : Reachable wm ms b a := by
  obtain ⟨n, hn⟩ := h; exact ⟨n, reachN_symm hn ha⟩

/-! ### The search-loop invariant -/


/-- Any walk ending at an unvisited cell passes through the queue: there
is a queue entry `(u, du)` and a continuation of length `k` with
`du + k ≤ m`.  The engine of the minimality argument. -/
theorem frontier {wm : List WorldMapNode} {ms : Nat × Nat} {src : Pos} {curId : Nat}
    {v : List (Option Nat)} {q ports : List (Pos × Nat)}
    (inv : Inv wm ms src curId v q ports) {p : Pos} {m : Nat} (h : ReachN wm ms src p m) :
    vAt v ms p = none →
      ∃ u du k, (u, du) ∈ q ∧ ReachN wm ms u p k ∧ du + k ≤ m := by
  induction h with
  | refl => intro hnone; rw [inv.hsrc0] at hnone; cases hnone
  | @step r p' k h' hn hp ih =>
    intro hnone
    by_cases hr : vAt v ms r = none
    · obtain ⟨u, du, k', hqm, hru, hle⟩ := ih hr
      exact ⟨u, du, k' + 1, hqm, .step hru hn hp, by omega⟩
    · obtain ⟨dr, hdr⟩ := Option.ne_none_iff_exists'.mp hr
      have hrB : InBoundsP ms r := by
        rcases reachN_passable_or_src h' with rfl | hpp
        · exact inv.hsrcB
        · exact hpp.1
      have hsh := inv.hsound r dr hrB hdr
      have hdrle : dr ≤ k := hsh.2 k h'
      rcases inv.hclos r dr hrB hdr with hmem | hcl
      · exact ⟨r, dr, 1, hmem, .step .refl hn hp, by omega⟩
      · exact absurd hnone (hcl p' hn hp)

/-- One iteration of the search loop preserves the invariant, and the
measure `unvisited + queue length` drops by exactly one. -/
theorem inv_step {wm : List WorldMapNode} {ms : Nat × Nat} {src : Pos} {curId : Nat}
    {v : List (Option Nat)} {rest ports ports' : List (Pos × Nat)} {node : Pos} {d : Nat}
    (inv : Inv wm ms src curId v ((node, d) :: rest) ports)
    (hports' :
      (ports' = ports ∧ ∀ j, nodeGetD wm ms node = .Port j → ¬j > curId) ∨
      (ports' = ports ++ [(node, d)] ∧ ∃ j, nodeGetD wm ms node = .Port j ∧ j > curId)) :
    ∀ v' q', expand wm ms v rest node d = (v', q') →
      Inv wm ms src curId v' q' ports' ∧
        countNone v' + q'.length = countNone v + rest.length ∧
        (∀ i e, v.getD i none = some e → v'.getD i none = some e) := by
  obtain ⟨v', pushed, hfold, es⟩ :=
    expand_spec inv.hms1 inv.hms2 (nbrsOf node) v rest inv.hvLen
  intro v'' q'' heq
  rw [expand, hfold] at heq
  obtain ⟨rfl, rfl⟩ : v' = v'' ∧ rest ++ pushed = q'' := by
    injection heq with h1 h2; exact ⟨h1, h2⟩
  have hhd : (node, d) ∈ (node, d) :: rest := List.mem_cons_self _ _
  have hnodeB : InBoundsP ms node := inv.hqB _ hhd
  have hnodeV : vAt v ms node = some d := inv.hq _ hhd
  have hsoundN : IsShortest wm ms src node d := inv.hsound _ _ hnodeB hnodeV
  obtain ⟨hwinHead, hwinTail⟩ : (∀ e ∈ rest.map Prod.snd, d ≤ e ∧ e ≤ d + 1) ∧ QWin rest :=
    inv.hwin
  have htrans : ∀ p dp, vAt v ms p ≠ none → vAt v' ms p = some dp → vAt v ms p = some dp := by
    intro p dp hne hpv
    obtain ⟨e, he⟩ := Option.ne_none_iff_exists'.mp hne
    have h2 : vAt v' ms p = some e := es.mono _ _ he
    rw [hpv] at h2
    rw [he]
    exact h2.symm
  have hvalNew : ∀ p dp, InBoundsP ms p → vAt v ms p = none → vAt v' ms p = some dp →
      dp = d + 1 ∧ p ∈ nbrsOf node ∧ PassableP wm ms p ∧ (p, d + 1) ∈ pushed := by
    intro p dp hpB hpnone hpv
    obtain ⟨hdp, x, hx, hxi⟩ := es.newSome (p.toIndex ms) dp hpnone hpv
    obtain ⟨hx2, hxnbl, hxB, hxnl, hxnone, hxv⟩ := es.pfacts x hx
    have hxp : x.1 = p := toIndex_inj inv.hms1 inv.hms2 hxB hpB hxi
    subst hdp
    refine ⟨rfl, hxp ▸ hxnbl, ⟨hpB, hxp ▸ hxnl⟩, ?_⟩
    have hxe : x = (p, d + 1) := by
      obtain ⟨xa, xb⟩ := x
      simp only at hx2 hxp
      rw [hx2, hxp]
    rwa [hxe] at hx
  constructor
  · refine ⟨?_, inv.hms1, inv.hms2, inv.hsrcB, ?_, ?_, ?_, ?_, ?_, ?_, ?_, ?_, ?_, ?_, ?_⟩
    · rw [es.lenEq]; exact inv.hvLen
    · exact es.mono _ _ inv.hsrc0
    · intro pd hpd
      rcases List.mem_append.mp hpd with h | h
      · exact inv.hqB _ (List.mem_cons_of_mem _ h)
      · exact (es.pfacts _ h).2.2.1
    · intro pd hpd
      rcases List.mem_append.mp hpd with h | h
      · exact es.mono _ _ (inv.hq _ (List.mem_cons_of_mem _ h))
      · have hf := es.pfacts _ h
        rw [hf.1]
        exact hf.2.2.2.2.2
    · refine @qwin_pop_push (d + 1) _ _ hwinTail ?_ ?_
      · intro f hf
        have := hwinHead f hf
        omega
      · intro x hx
        exact (es.pfacts x hx).1
    · intro p dp hpB hpv
      by_cases hold : vAt v ms p = none
      · obtain ⟨hdp, hnb, hpass, hpush⟩ := hvalNew p dp hpB hold hpv
        subst hdp
        constructor
        · exact .step hsoundN.1 hnb hpass
        · intro m hm
          by_contra hlt
          push_neg at hlt
          obtain ⟨u, du, k, hqm, hup, hduk⟩ := frontier inv hm hold
          rcases Nat.eq_zero_or_pos k with hk0 | hkpos
          · subst hk0
            have hup' := reachN_zero hup
            have h9 : vAt v ms p = some du := hup' ▸ inv.hq (u, du) hqm
            rw [hold] at h9
            cases h9
          · have hdu : d ≤ du := by
              rcases List.mem_cons.mp hqm with hEq | hMem
              · injection hEq with h1 h2; omega
              · have := (hwinHead du (List.mem_map.mpr ⟨(u, du), hMem, rfl⟩)).1
                omega
            omega
      · have he := htrans p dp hold hpv
        exact inv.hsound p dp hpB he
    · intro p dp hpB hpv
      by_cases hold : vAt v ms p = none
      · obtain ⟨hdp, hnb, hpass, hpush⟩ := hvalNew p dp hpB hold hpv
        subst hdp
        exact .inl (List.mem_append.mpr (.inr hpush))
      · have he := htrans p dp hold hpv
        rcases inv.hclos p dp hpB he with hmem | hcl
        · rcases List.mem_cons.mp hmem with hEq | hMem
          · injection hEq with h1 h2
            refine .inr (fun nb hnb hpassnb => ?_)
            exact es.cover nb (h1 ▸ hnb) hpassnb
          · exact .inl (List.mem_append.mpr (.inl hMem))
        · refine .inr (fun nb hnb hpassnb => ?_)
          obtain ⟨e2, he2⟩ := Option.ne_none_iff_exists'.mp (hcl nb hnb hpassnb)
          have h3 : vAt v' ms nb = some e2 := es.mono _ _ he2
          rw [h3]
          simp
    · intro p dp hpB hpv qd hqd
      rcases List.mem_append.mp hqd with hr | hpu
      · have hge : d ≤ qd.2 := (hwinHead qd.2 (List.mem_map.mpr ⟨qd, hr, rfl⟩)).1
        by_cases hold : vAt v ms p = none
        · have hdp := (hvalNew p dp hpB hold hpv).1
          omega
        · have he := htrans p dp hold hpv
          have := inv.hI6 p dp hpB he (node, d) hhd
          omega
      · have he2 : qd.2 = d + 1 := (es.pfacts qd hpu).1
        by_cases hold : vAt v ms p = none
        · have hdp := (hvalNew p dp hpB hold hpv).1
          omega
        · have he := htrans p dp hold hpv
          have := inv.hI6 p dp hpB he (node, d) hhd
          omega
    · intro p dp hpB hpv
      by_cases hold : vAt v ms p = none
      · obtain ⟨hdp, _, _, hpush⟩ := hvalNew p dp hpB hold hpv
        subst hdp
        exact .inl (List.mem_append.mpr (.inr hpush))
      · have he := htrans p dp hold hpv
        rcases inv.hIdx p dp hpB he with hmem | hr
        · rcases List.mem_cons.mp hmem with hEq | hMem
          · injection hEq with h1 h2
            refine .inr (fun j hj hjgt => ?_)
            rcases hports' with ⟨hpp, hnot⟩ | ⟨hpp, j2, hj2, hj2gt⟩
            · exact absurd hjgt (hnot j (h1 ▸ hj))
            · refine ⟨d, ?_⟩
              rw [hpp, h1]
              exact List.mem_append.mpr (.inr (List.mem_singleton.mpr rfl))
          · exact .inl (List.mem_append.mpr (.inl hMem))
        · refine .inr (fun j hj hjgt => ?_)
          obtain ⟨e, hpe⟩ := hr j hj hjgt
          refine ⟨e, ?_⟩
          rcases hports' with ⟨hpp, _⟩ | ⟨hpp, _⟩ <;> rw [hpp]
          · exact hpe
          · exact List.mem_append.mpr (.inl hpe)
    · rw [List.map_append]
      have hn := inv.hNodupQ
      simp only [List.map_cons, List.nodup_cons] at hn
      refine hn.2.append es.pnodup ?_
      intro a ha hb
      obtain ⟨x, hx, hxa⟩ := List.mem_map.mp ha
      obtain ⟨y, hy, hya⟩ := List.mem_map.mp hb
      have h1 : vAt v ms x.1 = some x.2 := inv.hq _ (List.mem_cons_of_mem _ hx)
      have h2 : vAt v ms y.1 = none := (es.pfacts y hy).2.2.2.2.1
      rw [hxa] at h1
      rw [hya] at h2
      rw [h1] at h2
      cases h2
    · intro pd hpd qd hqd
      rcases List.mem_append.mp hqd with hr | hpu
      · have hmemP : pd ∈ ports ∨ pd = (node, d) := by
          rcases hports' with ⟨hpp, _⟩ | ⟨hpp, _⟩ <;> rw [hpp] at hpd
          · exact .inl hpd
          · rcases List.mem_append.mp hpd with h | h
            · exact .inl h
            · exact .inr (List.mem_singleton.mp h)
        rcases hmemP with hpo | hpn
        · exact inv.hPQdisj pd hpo qd (List.mem_cons_of_mem _ hr)
        · subst hpn
          have hn := inv.hNodupQ
          simp only [List.map_cons, List.nodup_cons] at hn
          intro heq
          apply hn.1
          have heq' : node = qd.1 := heq
          rw [heq']
          exact List.mem_map.mpr ⟨qd, hr, rfl⟩
      · have h2 : vAt v ms qd.1 = none := (es.pfacts qd hpu).2.2.2.2.1
        have h1 : vAt v ms pd.1 ≠ none := by
          have hmemP : pd ∈ ports ∨ pd = (node, d) := by
            rcases hports' with ⟨hpp, _⟩ | ⟨hpp, _⟩ <;> rw [hpp] at hpd
            · exact .inl hpd
            · rcases List.mem_append.mp hpd with h | h
              · exact .inl h
              · exact .inr (List.mem_singleton.mp h)
          rcases hmemP with hpo | hpn
          · rw [(inv.hports pd hpo).2.1]
            simp
          · subst hpn
            rw [hnodeV]
            simp
        intro heq
        rw [heq] at h1
        exact h1 h2
    · intro pd hpd
      rcases hports' with ⟨hpp, hnot⟩ | ⟨hpp, j, hj, hjgt⟩
      · rw [hpp] at hpd
        obtain ⟨hB, hV, hJ⟩ := inv.hports pd hpd
        exact ⟨hB, es.mono _ _ hV, hJ⟩
      · rw [hpp] at hpd
        rcases List.mem_append.mp hpd with h | h
        · obtain ⟨hB, hV, hJ⟩ := inv.hports pd h
          exact ⟨hB, es.mono _ _ hV, hJ⟩
        · have hpn := List.mem_singleton.mp h
          subst hpn
          exact ⟨hnodeB, es.mono _ _ hnodeV, j, hj, hjgt⟩
  · have := es.count
    rw [List.length_append]
    exact ⟨by omega, es.mono⟩

/-- Case analysis for the collection step. -/
theorem collect_spec (wm : List WorldMapNode) (ms : Nat × Nat) (cur first : Pos) (curId : Nat)
    (node : Pos) (dist : Nat) (ports : List (Pos × Nat)) (ll ls : List Pos) :
    (collect wm ms cur first curId node dist ports ll ls = (ports, ll, ls) ∧
      ∀ j, nodeGetD wm ms node = .Port j → ¬j > curId)
    ∨ (∃ j, nodeGetD wm ms node = .Port j ∧ j > curId ∧
        collect wm ms cur first curId node dist ports ll ls =
          (ports ++ [(node, dist)],
            (if cur = first then ll else ll.filter (fun q => q ≠ node)),
            (if cur = first then ls ++ [node] else ls))) := by
  cases hnode : nodeGetD wm ms node with
  | Water =>
    refine .inl ⟨?_, fun j hj => by cases hj⟩
    simp [collect, hnode]
  | Land =>
    refine .inl ⟨?_, fun j hj => by cases hj⟩
    simp [collect, hnode]
  | Port pid =>
    by_cases hgt : pid > curId
    · refine .inr ⟨pid, rfl, hgt, ?_⟩
      simp [collect, hnode, hgt]
    · refine .inl ⟨?_, fun j hj => by injection hj with h; omega⟩
      simp [collect, hnode, hgt]

/-- With an empty queue the invariant yields the completed-search
facts: every reachable cell is visited and every reachable
strictly-higher port was collected. -/
theorem exit_post {wm : List WorldMapNode} {ms : Nat × Nat} {cur : Pos} {curId : Nat}
    {v : List (Option Nat)} {ports : List (Pos × Nat)}
    (inv : Inv wm ms cur curId v [] ports) :
    (∀ p m, ReachN wm ms cur p m → vAt v ms p ≠ none) ∧
    (∀ p j, InBoundsP ms p → nodeGetD wm ms p = .Port j → j > curId →
      Reachable wm ms cur p → ∃ e, (p, e) ∈ ports) := by
  have hvis : ∀ p m, ReachN wm ms cur p m → vAt v ms p ≠ none := by
    intro p m h
    induction h with
    | refl => rw [inv.hsrc0]; simp
    | @step r p' k h' hn hp ih =>
      have hrB : InBoundsP ms r := by
        rcases reachN_passable_or_src h' with rfl | hpp
        · exact inv.hsrcB
        · exact hpp.1
      obtain ⟨dr, hdr⟩ := Option.ne_none_iff_exists'.mp ih
      rcases inv.hclos r dr hrB hdr with hmem | hcl
      · exact absurd hmem (List.not_mem_nil _)
      · exact hcl p' hn hp
  refine ⟨hvis, ?_⟩
  intro p j hpB hport hgt hreach
  obtain ⟨m, hm⟩ := hreach
  obtain ⟨e, he⟩ := Option.ne_none_iff_exists'.mp (hvis p m hm)
  rcases inv.hIdx p e hpB he with hmem | hr
  · exact absurd hmem (List.not_mem_nil _)
  · exact hr j hport hgt

/-- Facts about the search loop that need no fuel bound: visited
entries persist, `ports` only grows (and `self.left_ports` grows in
lock-step at the first port), every collected port is a reachable
strictly-higher port at its shortest distance, and every position of
the loop-local left list is either still left or was collected. -/
theorem bfsLoop_basic {wm : List WorldMapNode} {ms : Nat × Nat} {cur first : Pos} {curId : Nat} :
    ∀ (fuel : Nat) (v : List (Option Nat)) (q ports : List (Pos × Nat)) (ll ls : List Pos)
      (out : BfsOut), Inv wm ms cur curId v q ports →
      bfsLoop wm ms cur first curId fuel v q ports ll ls = out →
      (∀ i e, v.getD i none = some e → out.visited.getD i none = some e) ∧
      (∀ p d, InBoundsP ms p → vAt out.visited ms p = some d → IsShortest wm ms cur p d) ∧
      (∃ Δ, out.ports = ports ++ Δ ∧
        out.leftSelf = (if cur = first then ls ++ Δ.map Prod.fst else ls)) ∧
      (∀ pd ∈ out.ports, InBoundsP ms pd.1 ∧ vAt out.visited ms pd.1 = some pd.2 ∧
        IsShortest wm ms cur pd.1 pd.2 ∧ ∃ j, nodeGetD wm ms pd.1 = .Port j ∧ j > curId) ∧
      (∀ p ∈ ll, p ∈ out.leftLocal ∨ ∃ e, (p, e) ∈ out.ports) := by
  intro fuel
  induction fuel with
  | zero =>
    intro v q ports ll ls out inv hout
    rw [bfsLoop] at hout
    subst hout
    refine ⟨fun i e h => h, fun p d hb hv => inv.hsound p d hb hv,
      ⟨[], by simp, by split <;> simp⟩, ?_, fun p hp => .inl hp⟩
    intro pd hpd
    obtain ⟨hB, hV, hJ⟩ := inv.hports pd hpd
    exact ⟨hB, hV, inv.hsound _ _ hB hV, hJ⟩
  | succ fuel ih =>
    intro v q ports ll ls out inv hout
    match q with
    | [] =>
      rw [bfsLoop] at hout
      subst hout
      refine ⟨fun i e h => h, fun p d hb hv => inv.hsound p d hb hv,
        ⟨[], by simp, by split <;> simp⟩, ?_, fun p hp => .inl hp⟩
      intro pd hpd
      obtain ⟨hB, hV, hJ⟩ := inv.hports pd hpd
      exact ⟨hB, hV, inv.hsound _ _ hB hV, hJ⟩
    | (node, dist) :: rest =>
      rw [bfsLoop] at hout
      have hhd : (node, dist) ∈ (node, dist) :: rest := List.mem_cons_self _ _
      have hnodeB : InBoundsP ms node := inv.hqB _ hhd
      have hnodeV : vAt v ms node = some dist := inv.hq _ hhd
      rcases collect_spec wm ms cur first curId node dist ports ll ls with
        ⟨hceq, hnot⟩ | ⟨j, hj, hgt, hceq⟩
      · rw [hceq] at hout
        simp only at hout
        by_cases hbr : ll = [] ∧ cur ≠ first
        · rw [if_pos hbr] at hout
          subst hout
          refine ⟨fun i e h => h, fun p d hb hv => inv.hsound p d hb hv,
            ⟨[], by simp, by split <;> simp⟩, ?_, fun p hp => .inl hp⟩
          intro pd hpd
          obtain ⟨hB, hV, hJ⟩ := inv.hports pd hpd
          exact ⟨hB, hV, inv.hsound _ _ hB hV, hJ⟩
        · rw [if_neg hbr] at hout
          rcases hexp : expand wm ms v rest node dist with ⟨v', q'⟩
          rw [hexp] at hout
          simp only at hout
          obtain ⟨inv', hmeas, hmono⟩ :=
            inv_step inv (.inl ⟨rfl, hnot⟩) v' q' hexp
          obtain ⟨hpersist, hsnd, ⟨Δ, hΔp, hΔs⟩, hpf, hbk⟩ :=
            ih v' q' ports ll ls out inv' hout
          refine ⟨fun i e h => hpersist i e (hmono i e h), hsnd, ⟨Δ, hΔp, hΔs⟩, hpf, hbk⟩
      · rw [hceq] at hout
        simp only at hout
        by_cases hbr : (if cur = first then ll else ll.filter (fun q => q ≠ node)) = [] ∧
            cur ≠ first
        · rw [if_pos hbr] at hout
          subst hout
          have hfirst : ¬cur = first := hbr.2
          rw [if_neg hfirst] at hbr ⊢
          refine ⟨fun i e h => h, fun p d hb hv => inv.hsound p d hb hv,
            ⟨[(node, dist)], by simp, by simp [hfirst]⟩, ?_, ?_⟩
          · intro pd hpd
            rcases List.mem_append.mp hpd with hpo | hpn
            · obtain ⟨hB, hV, hJ⟩ := inv.hports pd hpo
              exact ⟨hB, hV, inv.hsound _ _ hB hV, hJ⟩
            · have := List.mem_singleton.mp hpn
              subst this
              exact ⟨hnodeB, hnodeV, inv.hsound _ _ hnodeB hnodeV, j, hj, hgt⟩
          · intro p hp
            by_cases hpn : p = node
            · subst hpn
              exact .inr ⟨dist, List.mem_append.mpr (.inr (List.mem_singleton.mpr rfl))⟩
            · refine .inl ?_
              simp only
              exact List.mem_filter.mpr ⟨hp, by simpa using hpn⟩
        · rw [if_neg hbr] at hout
          rcases hexp : expand wm ms v rest node dist with ⟨v', q'⟩
          rw [hexp] at hout
          simp only at hout
          obtain ⟨inv', hmeas, hmono⟩ :=
            inv_step inv (.inr ⟨rfl, j, hj, hgt⟩) v' q' hexp
          obtain ⟨hpersist, hsnd, ⟨Δ, hΔp, hΔs⟩, hpf, hbk⟩ :=
            ih v' q' (ports ++ [(node, dist)])
              (if cur = first then ll else ll.filter (fun q => q ≠ node))
              (if cur = first then ls ++ [node] else ls) out inv' hout
          refine ⟨fun i e h => hpersist i e (hmono i e h), hsnd,
            ⟨(node, dist) :: Δ, by rw [hΔp, List.append_assoc]; rfl, ?_⟩, hpf, ?_⟩
          · by_cases hcf : cur = first
            · rw [if_pos hcf] at hΔs ⊢
              rw [hΔs, if_pos hcf, List.append_assoc]
              rfl
            · rw [if_neg hcf] at hΔs ⊢
              rw [hΔs, if_neg hcf]
          · intro p hp
            by_cases hpn : p = node
            · subst hpn
              refine .inr ⟨dist, ?_⟩
              rw [hΔp]
              exact List.mem_append.mpr (.inl (List.mem_append.mpr
                (.inr (List.mem_singleton.mpr rfl))))
            · have hp' : p ∈ (if cur = first then ll else ll.filter (fun q => q ≠ node)) := by
                by_cases hcf : cur = first
                · rw [if_pos hcf]; exact hp
                · rw [if_neg hcf]
                  exact List.mem_filter.mpr ⟨hp, by simpa using hpn⟩
              exact hbk p hp'

/-- With enough fuel the loop either completes the search (every
reachable cell visited, every reachable strictly-higher port
collected) or exits through the early break, in which case the vessel
is away from the first port and the loop-local left list was fully
consumed. -/
theorem bfsLoop_complete {wm : List WorldMapNode} {ms : Nat × Nat} {cur first : Pos}
    {curId : Nat} :
    ∀ (fuel : Nat) (v : List (Option Nat)) (q ports : List (Pos × Nat)) (ll ls : List Pos)
      (out : BfsOut), Inv wm ms cur curId v q ports →
      countNone v + q.length ≤ fuel →
      bfsLoop wm ms cur first curId fuel v q ports ll ls = out →
      ((∀ p m, ReachN wm ms cur p m → vAt out.visited ms p ≠ none) ∧
        (∀ p j, InBoundsP ms p → nodeGetD wm ms p = .Port j → j > curId →
          Reachable wm ms cur p → ∃ e, (p, e) ∈ out.ports))
      ∨ (cur ≠ first ∧ out.leftLocal = []) := by
  intro fuel
  induction fuel with
  | zero =>
    intro v q ports ll ls out inv hfuel hout
    have hq0 : q.length = 0 := by omega
    have hq : q = [] := List.length_eq_zero.mp hq0
    subst hq
    rw [bfsLoop] at hout
    subst hout
    exact .inl (exit_post inv)
  | succ fuel ih =>
    intro v q ports ll ls out inv hfuel hout
    match q with
    | [] =>
      rw [bfsLoop] at hout
      subst hout
      exact .inl (exit_post inv)
    | (node, dist) :: rest =>
      rw [bfsLoop] at hout
      rcases collect_spec wm ms cur first curId node dist ports ll ls with
        ⟨hceq, hnot⟩ | ⟨j, hj, hgt, hceq⟩
      · rw [hceq] at hout
        simp only at hout
        by_cases hbr : ll = [] ∧ cur ≠ first
        · rw [if_pos hbr] at hout
          subst hout
          exact .inr ⟨hbr.2, hbr.1⟩
        · rw [if_neg hbr] at hout
          rcases hexp : expand wm ms v rest node dist with ⟨v', q'⟩
          rw [hexp] at hout
          simp only at hout
          obtain ⟨inv', hmeas, _⟩ := inv_step inv (.inl ⟨rfl, hnot⟩) v' q' hexp
          have hfuel' : countNone v' + q'.length ≤ fuel := by
            simp only [List.length_cons] at hfuel
            omega
          exact ih v' q' ports ll ls out inv' hfuel' hout
      · rw [hceq] at hout
        simp only at hout
        by_cases hbr : (if cur = first then ll else ll.filter (fun q => q ≠ node)) = [] ∧
            cur ≠ first
        · rw [if_pos hbr] at hout
          subst hout
          exact .inr ⟨hbr.2, hbr.1⟩
        · rw [if_neg hbr] at hout
          rcases hexp : expand wm ms v rest node dist with ⟨v', q'⟩
          rw [hexp] at hout
          simp only at hout
          obtain ⟨inv', hmeas, _⟩ := inv_step inv (.inr ⟨rfl, j, hj, hgt⟩) v' q' hexp
          have hfuel' : countNone v' + q'.length ≤ fuel := by
            simp only [List.length_cons] at hfuel
            omega
          exact ih v' q' (ports ++ [(node, dist)])
            (if cur = first then ll else ll.filter (fun q => q ≠ node))
            (if cur = first then ls ++ [node] else ls) out inv' hfuel' hout

/-- When no strictly-higher port is reachable from the source the loop
collects nothing and leaves both bookkeeping lists untouched. -/
theorem bfsLoop_no_higher {wm : List WorldMapNode} {ms : Nat × Nat} {cur first : Pos}
    {curId : Nat}
    (hno : ∀ p j, InBoundsP ms p → nodeGetD wm ms p = .Port j → j > curId →
      ¬Reachable wm ms cur p) :
    ∀ (fuel : Nat) (v : List (Option Nat)) (q ports : List (Pos × Nat)) (ll ls : List Pos)
      (out : BfsOut), Inv wm ms cur curId v q ports →
      bfsLoop wm ms cur first curId fuel v q ports ll ls = out →
      out.ports = ports ∧ out.leftLocal = ll ∧ out.leftSelf = ls := by
  intro fuel
  induction fuel with
  | zero =>
    intro v q ports ll ls out inv hout
    rw [bfsLoop] at hout
    subst hout
    exact ⟨rfl, rfl, rfl⟩
  | succ fuel ih =>
    intro v q ports ll ls out inv hout
    match q with
    | [] =>
      rw [bfsLoop] at hout
      subst hout
      exact ⟨rfl, rfl, rfl⟩
    | (node, dist) :: rest =>
      rw [bfsLoop] at hout
      have hhd : (node, dist) ∈ (node, dist) :: rest := List.mem_cons_self _ _
      have hnodeB : InBoundsP ms node := inv.hqB _ hhd
      have hnodeV : vAt v ms node = some dist := inv.hq _ hhd
      rcases collect_spec wm ms cur first curId node dist ports ll ls with
        ⟨hceq, hnot⟩ | ⟨j, hj, hgt, hceq⟩
      · rw [hceq] at hout
        simp only at hout
        by_cases hbr : ll = [] ∧ cur ≠ first
        · rw [if_pos hbr] at hout
          subst hout
          exact ⟨rfl, rfl, rfl⟩
        · rw [if_neg hbr] at hout
          rcases hexp : expand wm ms v rest node dist with ⟨v', q'⟩
          rw [hexp] at hout
          simp only at hout
          obtain ⟨inv', _, _⟩ := inv_step inv (.inl ⟨rfl, hnot⟩) v' q' hexp
          exact ih v' q' ports ll ls out inv' hout
      · exfalso
        have hsh := inv.hsound _ _ hnodeB hnodeV
        exact hno node j hnodeB hj hgt ⟨dist, hsh.1⟩

/-! ### Bridging lemmas and the initial invariant -/

theorem getD_of_get? {α : Type} : ∀ {l : List α} {i : Nat} {a : α} (d : α),
    l.get? i = some a → l.getD i d = a
  | [], i, a, d, h => by simp at h
  | x :: xs, 0, a, d, h => by
    simp only [List.get?_cons_zero, Option.some.injEq] at h
    simp [h]
  | x :: xs, i + 1, a, d, h => by
    simp only [List.get?_cons_succ] at h
    simp only [List.getD_cons_succ]
    exact getD_of_get? d h

theorem get?_of_getD {α : Type} : ∀ {l : List α} {i : Nat} {d a : α}, i < l.length →
    l.getD i d = a → l.get? i = some a
  | [], i, d, a, h, _ => by simp at h
  | x :: xs, 0, d, a, _, hg => by
    simp only [List.getD_cons_zero] at hg
    simp [hg]
  | x :: xs, i + 1, d, a, h, hg => by
    simp only [List.getD_cons_succ] at hg
    simp only [List.get?_cons_succ]
    exact get?_of_getD (by simpa using h) hg

theorem getD_replicate_none {i n : Nat} :
    (List.replicate n (none : Option Nat)).getD i none = none := by
  induction n generalizing i with
  | zero => simp
  | succ n ih =>
    cases i with
    | zero => simp [List.replicate]
    | succ m => simpa [List.replicate] using ih

theorem countNone_replicate {n : Nat} : countNone (List.replicate n (none : Option Nat)) = n := by
  induction n with
  | zero => simp [countNone]
  | succ n ih => simp [countNone, List.replicate, List.countP_cons] at *; omega

/-- The invariant holds for the start state of the search in `next`:
one source cell at distance `0`. -/
theorem inv_init {wm : List WorldMapNode} {ms : Nat × Nat} {src : Pos} (curId : Nat)
    (h1 : ms.1 < 2 ^ 31) (h2 : ms.2 < 2 ^ 31) (hlen : wm.length = ms.1 * ms.2)
    (hsrcB : InBoundsP ms src) :
    Inv wm ms src curId
      ((List.replicate (ms.1 * ms.2) (none : Option Nat)).set (src.toIndex ms) (some 0))
      [(src, 0)] [] := by
  have hidx : src.toIndex ms < ms.1 * ms.2 := toIndex_lt h1 h2 hsrcB
  have hlenv : (List.replicate (ms.1 * ms.2) (none : Option Nat)).length = ms.1 * ms.2 := by
    simp
  have hsrcv : vAt ((List.replicate (ms.1 * ms.2) (none : Option Nat)).set
      (src.toIndex ms) (some 0)) ms src = some 0 :=
    List.getD_set_self (by simpa using hidx) _ _
  have hother : ∀ p, InBoundsP ms p → p ≠ src →
      vAt ((List.replicate (ms.1 * ms.2) (none : Option Nat)).set
        (src.toIndex ms) (some 0)) ms p = none := by
    intro p hpB hne
    have hne' : src.toIndex ms ≠ p.toIndex ms := by
      intro hcon
      exact hne (toIndex_inj h1 h2 hpB hsrcB hcon.symm)
    rw [vAt, List.getD_set_ne hne']
    exact getD_replicate_none
  refine ⟨?_, h1, h2, hsrcB, hsrcv, ?_, ?_, ?_, ?_, ?_, ?_, ?_, ?_, ?_, ?_⟩
  · simp
  · intro pd hpd
    rw [List.mem_singleton.mp hpd]
    exact hsrcB
  · intro pd hpd
    rw [List.mem_singleton.mp hpd]
    exact hsrcv
  · exact ⟨by simp, trivial⟩
  · intro p d hpB hpv
    by_cases hps : p = src
    · subst hps
      rw [hpv] at hsrcv
      injection hsrcv with h0
      subst h0
      exact ⟨.refl, fun m _ => Nat.zero_le m⟩
    · rw [hother p hpB hps] at hpv
      cases hpv
  · intro p d hpB hpv
    by_cases hps : p = src
    · subst hps
      rw [hpv] at hsrcv
      injection hsrcv with h0
      subst h0
      exact .inl (List.mem_singleton.mpr rfl)
    · rw [hother p hpB hps] at hpv
      cases hpv
  · intro p d hpB hpv qd hqd
    by_cases hps : p = src
    · subst hps
      rw [hpv] at hsrcv
      injection hsrcv with h0
      omega
    · rw [hother p hpB hps] at hpv
      cases hpv
  · intro p d hpB hpv
    by_cases hps : p = src
    · subst hps
      rw [hpv] at hsrcv
      injection hsrcv with h0
      subst h0
      exact .inl (List.mem_singleton.mpr rfl)
    · rw [hother p hpB hps] at hpv
      cases hpv
  · simp
  · intro pd hpd
    cases hpd
  · intro pd hpd
    cases hpd

/-! ### Selection lemmas (`min_by_key` / `max_by_key`) -/

theorem minByKeyFirst_ne_none {α : Type} {key : α → Nat} {x : α} {rest : List α} :
    minByKeyFirst key (x :: rest) ≠ none := by
  rw [minByKeyFirst]
  cases hr : minByKeyFirst key rest with
  | none => simp
  | some b => by_cases hlt : key b < key x <;> simp [hlt]

theorem minByKeyFirst_eq_none {α : Type} {key : α → Nat} :
    ∀ {l : List α}, minByKeyFirst key l = none → l = []
  | [], _ => rfl
  | x :: rest, h => absurd h minByKeyFirst_ne_none

theorem minByKeyFirst_mem {α : Type} {key : α → Nat} :
    ∀ {l : List α} {a : α}, minByKeyFirst key l = some a → a ∈ l ∧ ∀ b ∈ l, key a ≤ key b
  | [], a, h => by simp [minByKeyFirst] at h
  | x :: rest, a, h => by
    cases hr : minByKeyFirst key rest with
    | none =>
      simp only [minByKeyFirst, hr] at h
      injection h with h
      subst h
      have hrest := minByKeyFirst_eq_none hr
      subst hrest
      refine ⟨List.mem_singleton.mpr rfl, fun b hb => ?_⟩
      rw [List.mem_singleton.mp hb]
    | some b =>
      simp only [minByKeyFirst, hr] at h
      obtain ⟨hbmem, hbmin⟩ := minByKeyFirst_mem hr
      by_cases hlt : key b < key x
      · rw [if_pos hlt] at h
        injection h with h
        subst h
        refine ⟨List.mem_cons_of_mem _ hbmem, fun c hc => ?_⟩
        rcases List.mem_cons.mp hc with rfl | hc'
        · omega
        · exact hbmin c hc'
      · rw [if_neg hlt] at h
        injection h with h
        subst h
        refine ⟨List.mem_cons_self _ _, fun c hc => ?_⟩
        rcases List.mem_cons.mp hc with rfl | hc'
        · exact le_refl _
        · have := hbmin c hc'
          omega

theorem maxByKeyLast_ne_none {α : Type} {key : α → Nat} {x : α} {rest : List α} :
    maxByKeyLast key (x :: rest) ≠ none := by
  rw [maxByKeyLast]
  cases hr : maxByKeyLast key rest with
  | none => simp
  | some b => by_cases hgt : key x > key b <;> simp [hgt]

theorem maxByKeyLast_eq_none {α : Type} {key : α → Nat} :
    ∀ {l : List α}, maxByKeyLast key l = none → l = []
  | [], _ => rfl
  | x :: rest, h => absurd h maxByKeyLast_ne_none

theorem maxByKeyLast_mem {α : Type} {key : α → Nat} :
    ∀ {l : List α} {a : α}, maxByKeyLast key l = some a → a ∈ l ∧ ∀ b ∈ l, key b ≤ key a
  | [], a, h => by simp [maxByKeyLast] at h
  | x :: rest, a, h => by
    cases hr : maxByKeyLast key rest with
    | none =>
      simp only [maxByKeyLast, hr] at h
      injection h with h
      subst h
      have hrest := maxByKeyLast_eq_none hr
      subst hrest
      refine ⟨List.mem_singleton.mpr rfl, fun b hb => ?_⟩
      rw [List.mem_singleton.mp hb]
    | some b =>
      simp only [maxByKeyLast, hr] at h
      obtain ⟨hbmem, hbmax⟩ := maxByKeyLast_mem hr
      by_cases hgt : key x > key b
      · rw [if_pos hgt] at h
        injection h with h
        subst h
        refine ⟨List.mem_cons_self _ _, fun c hc => ?_⟩
        rcases List.mem_cons.mp hc with rfl | hc'
        · exact le_refl _
        · have := hbmax c hc'
          omega
      · rw [if_neg hgt] at h
        injection h with h
        subst h
        refine ⟨List.mem_cons_of_mem _ hbmem, fun c hc => ?_⟩
        rcases List.mem_cons.mp hc with rfl | hc'
        · omega
        · exact hbmax c hc'


theorem keyed?_eq_map {wm : List WorldMapNode} {ms : Nat × Nat} :
    ∀ {ports : List (Pos × Nat)},
      (∀ pd ∈ ports, ∃ j, wm.get? (pd.1.toIndex ms) = some (.Port j)) →
      keyed? wm ms ports = some (ports.map (fun pd => (pidAt wm ms pd.1, pd.1, pd.2)))
  | [], _ => rfl
  | (p, d) :: rest, h => by
    obtain ⟨j, hj⟩ := h (p, d) (List.mem_cons_self _ _)
    rw [keyed?]
    simp only at hj
    rw [hj, keyed?_eq_map (fun pd hpd => h pd (List.mem_cons_of_mem _ hpd))]
    simp only [pidAt, hj, Option.map_some', List.map_cons]

/-! ### The step operation on well-formed states -/

theorem bfsOutOf_facts {t : PhoenicianTrader} (cid : Nat)
    (hw : WFGeom t) (hcurB : InBoundsP t.map_size t.current_port) :
    (∀ pd ∈ (bfsOutOf t cid).ports, InBoundsP t.map_size pd.1 ∧
      IsShortest t.world_map t.map_size t.current_port pd.1 pd.2 ∧
      ∃ j, nodeGetD t.world_map t.map_size pd.1 = .Port j ∧ j > cid) ∧
    ((bfsOutOf t cid).leftSelf =
      if t.current_port = t.first_port
        then t.left_ports ++ (bfsOutOf t cid).ports.map Prod.fst
        else t.left_ports) ∧
    (∀ p ∈ t.left_ports, p ∈ (bfsOutOf t cid).leftLocal ∨
      ∃ e, (p, e) ∈ (bfsOutOf t cid).ports) ∧
    (((∀ p m, ReachN t.world_map t.map_size t.current_port p m →
        vAt (bfsOutOf t cid).visited t.map_size p ≠ none) ∧
      (∀ p j, InBoundsP t.map_size p → nodeGetD t.world_map t.map_size p = .Port j →
        j > cid → Reachable t.world_map t.map_size t.current_port p →
        ∃ e, (p, e) ∈ (bfsOutOf t cid).ports))
      ∨ (t.current_port ≠ t.first_port ∧ (bfsOutOf t cid).leftLocal = [])) := by
  obtain ⟨hlen, h1, h2⟩ := hw
  have hinv := inv_init cid h1 h2 hlen hcurB
  have hidx : t.current_port.toIndex t.map_size < t.map_size.1 * t.map_size.2 :=
    toIndex_lt h1 h2 hcurB
  have hcn : countNone ((List.replicate (t.map_size.1 * t.map_size.2)
      (none : Option Nat)).set (t.current_port.toIndex t.map_size) (some 0)) + 1 =
      t.map_size.1 * t.map_size.2 := by
    have := countNone_set_some (v := List.replicate (t.map_size.1 * t.map_size.2)
      (none : Option Nat)) (by simpa using hidx) getD_replicate_none 0
    rw [countNone_replicate] at this
    omega
  obtain ⟨hpersist, hsnd, ⟨Δ, hΔp, hΔs⟩, hpf, hbk⟩ :=
    bfsLoop_basic _ _ _ _ t.left_ports t.left_ports
      (bfsOutOf t cid) hinv rfl
  have hcomp :=
    bfsLoop_complete _ _ _ _ t.left_ports t.left_ports
      (bfsOutOf t cid) hinv (by simp only [List.length_cons, List.length_nil]; omega) rfl
  refine ⟨fun pd hpd => ?_, ?_, hbk, hcomp⟩
  · obtain ⟨hB, _, hS, hJ⟩ := hpf pd hpd
    exact ⟨hB, hS, hJ⟩
  · rw [List.nil_append] at hΔp
    rw [hΔs, hΔp]


/-- On a good state the collected `ports` list is sound and complete
for the reachable strictly-higher ports, and `self.left_ports` after
the loop is explicit. -/
theorem good_ports_char {t : PhoenicianTrader} {cid : Nat} (g : GoodT t cid) :
    (∀ pd ∈ (bfsOutOf t cid).ports, InBoundsP t.map_size pd.1 ∧
      IsShortest t.world_map t.map_size t.current_port pd.1 pd.2 ∧
      ∃ j, nodeGetD t.world_map t.map_size pd.1 = .Port j ∧ j > cid) ∧
    (∀ q jq, InBoundsP t.map_size q → nodeGetD t.world_map t.map_size q = .Port jq →
      jq > cid → Reachable t.world_map t.map_size t.current_port q →
      ∃ e, (q, e) ∈ (bfsOutOf t cid).ports) ∧
    ((bfsOutOf t cid).leftSelf =
      if t.current_port = t.first_port
        then t.left_ports ++ (bfsOutOf t cid).ports.map Prod.fst
        else t.left_ports) := by
  obtain ⟨hpf, hls, hbk, hcomp⟩ := bfsOutOf_facts cid g.wf g.curB
  refine ⟨hpf, ?_, hls⟩
  rcases hcomp with ⟨_, hfull⟩ | ⟨hne, hll⟩
  · exact hfull
  · intro q jq hqB hqPort hqGt hqReach
    rcases g.lap with ⟨heq, _⟩ | ⟨_, _, hcover⟩
    · exact absurd heq hne
    · have hqMem := hcover q jq hqB hqPort hqGt hqReach
      rcases hbk q hqMem with hinLL | hE
      · rw [hll] at hinLL
        exact absurd hinLL (List.not_mem_nil _)
      · exact hE

theorem unique_port_pos {wm : List WorldMapNode} {ms : Nat × Nat}
    (h1 : ms.1 < 2 ^ 31) (h2 : ms.2 < 2 ^ 31) (hlen : wm.length = ms.1 * ms.2)
    (uniq : UniquePortIds wm) {p q : Pos} {j : Nat}
    (hpB : InBoundsP ms p) (hqB : InBoundsP ms q)
    (hp : nodeGetD wm ms p = .Port j) (hq : nodeGetD wm ms q = .Port j) : p = q := by
  have hip : p.toIndex ms < wm.length := by rw [hlen]; exact toIndex_lt h1 h2 hpB
  have hiq : q.toIndex ms < wm.length := by rw [hlen]; exact toIndex_lt h1 h2 hqB
  have hp' : wm.getD (p.toIndex ms) .Land = .Port j := hp
  have hq' : wm.getD (q.toIndex ms) .Land = .Port j := hq
  have heq := uniq (p.toIndex ms) (q.toIndex ms) hip hiq
    (by rw [hp', hq']) (by rw [hp']; rfl)
  exact toIndex_inj h1 h2 hpB hqB heq

theorem pidAt_eq {wm : List WorldMapNode} {ms : Nat × Nat} {p : Pos} {j : Nat}
    (hlt : p.toIndex ms < wm.length) (hp : nodeGetD wm ms p = .Port j) :
    pidAt wm ms p = j := by
  have hget := get?_of_getD hlt hp
  simp only [pidAt]
  rw [hget]

/-- Complete characterisation of one step from a good state: either no
strictly-higher port is reachable and the step ends the sequence with
the state untouched, or the step selects the reachable higher port of
minimal id, adds its shortest distance (after a maximal-id return leg
when at the first port), moves there, and the new state is good
again. -/
theorem next_spec {t : PhoenicianTrader} {cid : Nat} (g : GoodT t cid) :
    ((∀ q jq, InBoundsP t.map_size q → nodeGetD t.world_map t.map_size q = .Port jq →
        jq > cid → ¬Reachable t.world_map t.map_size t.current_port q) ∧
      t.next = .done t)
    ∨ (∃ sel selId dmin extra t',
        t.next = .yield (t.fuel_cost + extra + dmin) t' ∧
        t' = { t with
          current_port := sel
          left_ports := (if t.current_port = t.first_port
            then (bfsOutOf t cid).ports.map Prod.fst
            else t.left_ports).filter (fun x => x ≠ sel)
          fuel_cost := t.fuel_cost + extra + dmin } ∧
        InBoundsP t.map_size sel ∧
        nodeGetD t.world_map t.map_size sel = .Port selId ∧
        cid < selId ∧
        Reachable t.world_map t.map_size t.current_port sel ∧
        IsShortest t.world_map t.map_size t.current_port sel dmin ∧
        (∀ r jr, InBoundsP t.map_size r → nodeGetD t.world_map t.map_size r = .Port jr →
          jr > cid → Reachable t.world_map t.map_size t.current_port r → selId ≤ jr) ∧
        (t.current_port ≠ t.first_port → extra = 0) ∧
        (t.current_port = t.first_port →
          ∃ pmax jmax, InBoundsP t.map_size pmax ∧
            nodeGetD t.world_map t.map_size pmax = .Port jmax ∧ cid < jmax ∧
            Reachable t.world_map t.map_size t.current_port pmax ∧
            IsShortest t.world_map t.map_size t.current_port pmax extra ∧
            (∀ r jr, InBoundsP t.map_size r → nodeGetD t.world_map t.map_size r = .Port jr →
              jr > cid → Reachable t.world_map t.map_size t.current_port r → jr ≤ jmax)) ∧
        GoodT t' selId) := by
  obtain ⟨hpf, hcomplete, hls⟩ := good_ports_char g
  have hms1 := g.wf.2.1
  have hms2 := g.wf.2.2
  have hlen := g.wf.1
  have hidxlt : t.current_port.toIndex t.map_size < t.world_map.length := by
    rw [hlen]; exact toIndex_lt hms1 hms2 g.curB
  have hget : t.world_map.get? (t.current_port.toIndex t.map_size) = some (.Port cid) :=
    get?_of_getD hidxlt g.curPort
  have hidxof : ∀ p : Pos, InBoundsP t.map_size p → p.toIndex t.map_size < t.world_map.length :=
    fun p hp => by rw [hlen]; exact toIndex_lt hms1 hms2 hp
  cases hports : (bfsOutOf t cid).ports with
  | nil =>
    left
    constructor
    · intro q jq hqB hqP hqGt hqR
      obtain ⟨e, he⟩ := hcomplete q jq hqB hqP hqGt hqR
      rw [hports] at he
      exact absurd he (List.not_mem_nil _)
    · have hlsnil : (bfsOutOf t cid).leftSelf = t.left_ports := by
        rw [hls, hports]
        split <;> simp
      simp only [PhoenicianTrader.next, hget, hports, hlsnil]
      simp only [show keyed? t.world_map t.map_size [] = some [] from rfl]
      by_cases hcf : t.first_port = t.current_port
      · rw [if_pos hcf]
        rfl
      · rw [if_neg hcf]
        rfl
  | cons pd0 rest0 =>
    right
    have hkeys : ∀ pd ∈ (bfsOutOf t cid).ports, ∃ j,
        t.world_map.get? (pd.1.toIndex t.map_size) = some (.Port j) := by
      intro pd hpd
      obtain ⟨hB, _, j, hP, _⟩ := hpf pd hpd
      exact ⟨j, get?_of_getD (hidxof _ hB) hP⟩
    have hK := keyed?_eq_map hkeys
    have hKcons : (bfsOutOf t cid).ports.map
        (fun pd => (pidAt t.world_map t.map_size pd.1, pd.1, pd.2)) =
        (pidAt t.world_map t.map_size pd0.1, pd0.1, pd0.2) ::
          rest0.map (fun pd => (pidAt t.world_map t.map_size pd.1, pd.1, pd.2)) := by
      rw [hports]
      rfl
    have hne0 : minByKeyFirst (fun x : Nat × Pos × Nat => x.1)
        ((bfsOutOf t cid).ports.map
          (fun pd => (pidAt t.world_map t.map_size pd.1, pd.1, pd.2))) ≠ none := by
      rw [hKcons]
      exact minByKeyFirst_ne_none
    obtain ⟨selK, hmin⟩ := Option.ne_none_iff_exists'.mp hne0
    obtain ⟨j0, sel, dmin⟩ := selK
    obtain ⟨hminmem, hminle⟩ := minByKeyFirst_mem hmin
    obtain ⟨pdm, hpdm, hpdmEq⟩ := List.mem_map.mp hminmem
    have hselports : (sel, dmin) ∈ (bfsOutOf t cid).ports := by
      have h1 : pdm.1 = sel := congrArg (fun x => x.2.1) hpdmEq
      have h2 : pdm.2 = dmin := congrArg (fun x => x.2.2) hpdmEq
      have : pdm = (sel, dmin) := by
        cases pdm
        simp only at h1 h2
        rw [h1, h2]
      exact this ▸ hpdm
    obtain ⟨hselB0, hselShort0, selId, hselPort0, hselGt⟩ := hpf _ hselports
    have hselB : InBoundsP t.map_size sel := hselB0
    have hselShort : IsShortest t.world_map t.map_size t.current_port sel dmin := hselShort0
    have hselPort : nodeGetD t.world_map t.map_size sel = .Port selId := hselPort0
    have hj0 : j0 = selId := by
      have h1 : pidAt t.world_map t.map_size pdm.1 = j0 := congrArg (fun x => x.1) hpdmEq
      have h2 : pdm.1 = sel := congrArg (fun x => x.2.1) hpdmEq
      rw [h2] at h1
      rw [← h1]
      exact pidAt_eq (hidxof _ hselB) hselPort
    rw [hj0] at hmin hminle
    have hselReach : Reachable t.world_map t.map_size t.current_port sel :=
      ⟨dmin, hselShort.1⟩
    have hminAll : ∀ r jr, InBoundsP t.map_size r →
        nodeGetD t.world_map t.map_size r = .Port jr → jr > cid →
        Reachable t.world_map t.map_size t.current_port r → selId ≤ jr := by
      intro r jr hrB hrP hrGt hrR
      obtain ⟨e, he⟩ := hcomplete r jr hrB hrP hrGt hrR
      have hrK : (pidAt t.world_map t.map_size r, r, e) ∈
          (bfsOutOf t cid).ports.map
            (fun pd => (pidAt t.world_map t.map_size pd.1, pd.1, pd.2)) :=
        List.mem_map.mpr ⟨(r, e), he, rfl⟩
      have := hminle _ hrK
      simpa [pidAt_eq (hidxof _ hrB) hrP] using this
    have hcurPass : PassableP t.world_map t.map_size t.current_port := by
      refine ⟨g.curB, ?_⟩
      rw [g.curPort]
      simp
    have hselNeFirst : t.current_port = t.first_port ∨ t.current_port ≠ t.first_port :=
      Classical.em _
    -- the selected port is never the first port
    obtain ⟨fid, hfidP, hfidLe⟩ := g.firstPort
    have hselFirst : sel ≠ t.first_port := by
      intro hconEq
      rw [hconEq, hfidP] at hselPort
      injection hselPort with hcon
      omega
    by_cases hcf : t.first_port = t.current_port
    · -- at the first port: return-leg branch
      have hlapL : t.left_ports = [] := by
        rcases g.lap with ⟨_, h⟩ | ⟨hne, _, _⟩
        · exact h
        · exact absurd hcf.symm hne
      have hlsMap : (bfsOutOf t cid).leftSelf = (bfsOutOf t cid).ports.map Prod.fst := by
        rw [hls, if_pos hcf.symm, hlapL]
        rfl
      have hneM : maxByKeyLast (fun x : Nat × Pos × Nat => x.1)
          ((bfsOutOf t cid).ports.map
            (fun pd => (pidAt t.world_map t.map_size pd.1, pd.1, pd.2))) ≠ none := by
        rw [hKcons]
        exact maxByKeyLast_ne_none
      obtain ⟨maxK, hmax⟩ := Option.ne_none_iff_exists'.mp hneM
      obtain ⟨jM, pmax, dmax⟩ := maxK
      obtain ⟨hmaxmem, hmaxge⟩ := maxByKeyLast_mem hmax
      obtain ⟨pdM, hpdM, hpdMEq⟩ := List.mem_map.mp hmaxmem
      have hmaxports : (pmax, dmax) ∈ (bfsOutOf t cid).ports := by
        have h1 : pdM.1 = pmax := congrArg (fun x => x.2.1) hpdMEq
        have h2 : pdM.2 = dmax := congrArg (fun x => x.2.2) hpdMEq
        have : pdM = (pmax, dmax) := by
          cases pdM
          simp only at h1 h2
          rw [h1, h2]
        exact this ▸ hpdM
      obtain ⟨hmaxB0, hmaxShort0, jmax, hmaxPort0, hmaxGt⟩ := hpf _ hmaxports
      have hmaxB : InBoundsP t.map_size pmax := hmaxB0
      have hmaxShort : IsShortest t.world_map t.map_size t.current_port pmax dmax := hmaxShort0
      have hmaxPort : nodeGetD t.world_map t.map_size pmax = .Port jmax := hmaxPort0
      have hjM : jM = jmax := by
        have h1 : pidAt t.world_map t.map_size pdM.1 = jM := congrArg (fun x => x.1) hpdMEq
        have h2 : pdM.1 = pmax := congrArg (fun x => x.2.1) hpdMEq
        rw [h2] at h1
        rw [← h1]
        exact pidAt_eq (hidxof _ hmaxB) hmaxPort
      rw [hjM] at hmax hmaxge
      have hmaxAll : ∀ r jr, InBoundsP t.map_size r →
          nodeGetD t.world_map t.map_size r = .Port jr → jr > cid →
          Reachable t.world_map t.map_size t.current_port r → jr ≤ jmax := by
        intro r jr hrB hrP hrGt hrR
        obtain ⟨e, he⟩ := hcomplete r jr hrB hrP hrGt hrR
        have hrK : (pidAt t.world_map t.map_size r, r, e) ∈
            (bfsOutOf t cid).ports.map
              (fun pd => (pidAt t.world_map t.map_size pd.1, pd.1, pd.2)) :=
          List.mem_map.mpr ⟨(r, e), he, rfl⟩
        have := hmaxge _ hrK
        simpa [pidAt_eq (hidxof _ hrB) hrP] using this
      refine ⟨sel, selId, dmin, dmax,
        { t with
          current_port := sel
          left_ports := ((bfsOutOf t cid).ports.map Prod.fst).filter (fun x => x ≠ sel)
          fuel_cost := t.fuel_cost + dmax + dmin }, ?_, ?_, hselB, hselPort, hselGt,
        hselReach, hselShort, hminAll, fun hne => absurd hcf.symm hne,
        fun _ => ⟨pmax, jmax, hmaxB, hmaxPort, hmaxGt, ⟨dmax, hmaxShort.1⟩, hmaxShort,
          hmaxAll⟩, ?_⟩
      · simp only [PhoenicianTrader.next, hget, hK, hlsMap]
        rw [if_pos hcf, hmax]
        simp only [selectMin, hmin]
      · rw [if_pos hcf.symm, hports]
      · -- the new state is good
        refine ⟨g.wf, g.uniq, hselB, hselPort, g.firstB, ⟨fid, hfidP, by omega⟩, .inr ⟨?_, ?_, ?_⟩⟩
        · exact hselFirst
        · intro p hp
          simp only [List.mem_filter, decide_eq_true_eq] at hp
          obtain ⟨hpS, hpne⟩ := hp
          obtain ⟨pd, hpd, hpdfst⟩ := List.mem_map.mp hpS
          obtain ⟨hpB, hpShort, jp, hpPort, hpGt⟩ := hpf pd hpd
          rw [hpdfst] at hpB hpPort
          have hpReach : Reachable t.world_map t.map_size t.current_port p :=
            hpdfst ▸ ⟨pd.2, hpShort.1⟩
          have hjpge : selId ≤ jp := hminAll p jp hpB hpPort hpGt hpReach
          have hjpne : jp ≠ selId := by
            intro hconEq
            exact hpne (unique_port_pos hms1 hms2 hlen g.uniq hpB hselB
              (hconEq ▸ hpPort) hselPort)
          refine ⟨hpB, jp, hpPort, by omega, ?_⟩
          exact reachable_trans (reachable_symm hselReach hcurPass) hpReach
        · intro q jq hqB hqP hqGt hqR
          have hqRcur : Reachable t.world_map t.map_size t.current_port q :=
            reachable_trans hselReach hqR
          have hqGtCid : jq > cid := by omega
          obtain ⟨e, he⟩ := hcomplete q jq hqB hqP hqGtCid hqRcur
          simp only [List.mem_filter, decide_eq_true_eq]
          refine ⟨List.mem_map.mpr ⟨(q, e), he, rfl⟩, ?_⟩
          intro hconEq
          rw [hconEq, hselPort] at hqP
          injection hqP with hcon
          omega
    · -- away from the first port
      have hlsId : (bfsOutOf t cid).leftSelf = t.left_ports := by
        rw [hls, if_neg (fun h => hcf h.symm)]
      obtain ⟨hneLap, hlapB, hlapC⟩ : t.current_port ≠ t.first_port ∧ _ ∧ _ := by
        rcases g.lap with ⟨heq, _⟩ | ⟨hne, hB, hC⟩
        · exact absurd heq.symm hcf
        · exact ⟨hne, hB, hC⟩
      refine ⟨sel, selId, dmin, 0,
        { t with
          current_port := sel
          left_ports := t.left_ports.filter (fun x => x ≠ sel)
          fuel_cost := t.fuel_cost + 0 + dmin }, ?_, ?_, hselB, hselPort, hselGt,
        hselReach, hselShort, hminAll, fun _ => rfl,
        fun hEq => absurd hEq.symm hcf, ?_⟩
      · simp only [PhoenicianTrader.next, hget, hK, hlsId]
        rw [if_neg hcf]
        simp only [selectMin, hmin]
        rfl
      · rw [if_neg hneLap]
      · refine ⟨g.wf, g.uniq, hselB, hselPort, g.firstB, ⟨fid, hfidP, by omega⟩, .inr ⟨?_, ?_, ?_⟩⟩
        · exact hselFirst
        · intro p hp
          simp only [List.mem_filter, decide_eq_true_eq] at hp
          obtain ⟨hpS, hpne⟩ := hp
          obtain ⟨hpB, jp, hpPort, hpGt, hpReach⟩ := hlapB p hpS
          have hjpge : selId ≤ jp := hminAll p jp hpB hpPort hpGt hpReach
          have hjpne : jp ≠ selId := by
            intro hconEq
            exact hpne (unique_port_pos hms1 hms2 hlen g.uniq hpB hselB
              (hconEq ▸ hpPort) hselPort)
          refine ⟨hpB, jp, hpPort, by omega, ?_⟩
          exact reachable_trans (reachable_symm hselReach hcurPass) hpReach
        · intro q jq hqB hqP hqGt hqR
          have hqRcur : Reachable t.world_map t.map_size t.current_port q :=
            reachable_trans hselReach hqR
          have hqGtCid : jq > cid := by omega
          have hqMem := hlapC q jq hqB hqP hqGtCid hqRcur
          simp only [List.mem_filter, decide_eq_true_eq]
          refine ⟨hqMem, ?_⟩
          intro hconEq
          rw [hconEq, hselPort] at hqP
          injection hqP with hcon
          omega

/-! ### Run-level invariants -/

theorem initState_good {t : PhoenicianTrader} (h : InitState t) : ∃ cid, GoodT t cid := by
  obtain ⟨hcf, hlp, hB, ⟨i, hP⟩, hwf, huniq⟩ := h
  refine ⟨i, hwf, huniq, hB, hP, hcf ▸ hB, ⟨i, hcf ▸ hP, le_refl i⟩, .inl ⟨hcf, hlp⟩⟩

theorem goodT_step {t : PhoenicianTrader} {cid : Nat} {c : Nat} {t' : PhoenicianTrader}
    (g : GoodT t cid) (h : t.next = .yield c t') : ∃ cid', cid < cid' ∧ GoodT t' cid' := by
  rcases next_spec g with ⟨_, hdone⟩ | ⟨sel, selId, dmin, extra, t'0, hy, _, _, _, hgt, _, _, _,
    _, _, hgood⟩
  · rw [h] at hdone
    cases hdone
  · rw [h] at hy
    injection hy with h1 h2
    subst h2
    exact ⟨selId, hgt, hgood⟩

theorem runState_good {t0 t : PhoenicianTrader} (h0 : InitState t0) (hr : RunState t0 t) :
    ∃ cid, GoodT t cid := by
  induction hr with
  | init => exact initState_good h0
  | step _ hy ih =>
    obtain ⟨cid, g⟩ := ih
    obtain ⟨cid', _, g'⟩ := goodT_step g hy
    exact ⟨cid', g'⟩

/-! ### The per-step fuel accounting -/

/-- Whenever `next` yields, the yielded value is the new cumulative
fuel cost and it is at least the old one (the step only adds
distances). -/
theorem next_yield_fuel {t : PhoenicianTrader} {c : Nat} {t' : PhoenicianTrader}
    (h : t.next = .yield c t') : c = t'.fuel_cost ∧ t.fuel_cost ≤ c := by
  unfold PhoenicianTrader.next at h
  cases hg : t.world_map.get? (t.current_port.toIndex t.map_size) with
  | none => rw [hg] at h; cases h
  | some nd =>
    cases nd with
    | Water => rw [hg] at h; cases h
    | Land => rw [hg] at h; cases h
    | Port cid =>
      simp only [hg] at h
      cases hk : keyed? t.world_map t.map_size (bfsOutOf t cid).ports with
      | none => simp only [hk] at h; cases h
      | some K =>
        simp only [hk] at h
        by_cases hcf : t.first_port = t.current_port
        · rw [if_pos hcf] at h
          cases hm : maxByKeyLast (fun x : Nat × Pos × Nat => x.1) K with
          | none => simp only [hm] at h; cases h
          | some trip =>
            obtain ⟨j0, p0, dmax⟩ := trip
            simp only [hm] at h
            cases hmin : minByKeyFirst (fun x : Nat × Pos × Nat => x.1) K with
            | none => simp only [selectMin, hmin] at h; cases h
            | some trip2 =>
              obtain ⟨j1, p1, dmin⟩ := trip2
              simp only [selectMin, hmin] at h
              injection h with h1 h2
              subst h1
              subst h2
              refine ⟨rfl, ?_⟩
              omega
        · rw [if_neg hcf] at h
          cases hmin : minByKeyFirst (fun x : Nat × Pos × Nat => x.1) K with
          | none => simp only [selectMin, hmin] at h; cases h
          | some trip2 =>
            obtain ⟨j1, p1, dmin⟩ := trip2
            simp only [selectMin, hmin] at h
            injection h with h1 h2
            subst h1
            subst h2
            refine ⟨rfl, ?_⟩
            omega

/-- Membership inverse for the keying pass: anything in the keyed list
comes from `ports` and its cell really is that port. -/
theorem keyed?_mem_inv {wm : List WorldMapNode} {ms : Nat × Nat} :
    ∀ {ports : List (Pos × Nat)} {K : List (Nat × Pos × Nat)},
      keyed? wm ms ports = some K →
      ∀ x ∈ K, (x.2.1, x.2.2) ∈ ports ∧ wm.get? (x.2.1.toIndex ms) = some (.Port x.1)
  | [], K, h => by
    rw [keyed?] at h
    injection h with h
    subst h
    intro x hx
    exact absurd hx (List.not_mem_nil _)
  | (p, d) :: rest, K, h => by
    rw [keyed?] at h
    split at h
    next j hj =>
      cases hK : keyed? wm ms rest with
      | none => rw [hK] at h; cases h
      | some K' =>
        rw [hK] at h
        injection h with h
        subst h
        intro x hx
        rcases List.mem_cons.mp hx with rfl | hx'
        · exact ⟨List.mem_cons_self _ _, hj⟩
        · obtain ⟨hmem, hport⟩ := keyed?_mem_inv hK x hx'
          exact ⟨List.mem_cons_of_mem _ hmem, hport⟩
    next => cases h

/-- Shape of `next` on any state whose current cell is a port on a
well-formed map: it never panics, and when it yields, the new current
cell is again an in-bounds port (the geometry is untouched). -/
theorem next_shape {t : PhoenicianTrader} {cid : Nat}
    (hwf : WFGeom t) (hcurB : InBoundsP t.map_size t.current_port)
    (hcur : nodeGetD t.world_map t.map_size t.current_port = .Port cid) :
    (∃ t1, t.next = .done t1 ∧ t1.world_map = t.world_map ∧ t1.map_size = t.map_size ∧
      t1.current_port = t.current_port ∧ t1.first_port = t.first_port) ∨
    (∃ c t', t.next = .yield c t' ∧ t'.world_map = t.world_map ∧ t'.map_size = t.map_size ∧
      t'.first_port = t.first_port ∧ InBoundsP t.map_size t'.current_port ∧
      ∃ i, nodeGetD t.world_map t.map_size t'.current_port = .Port i) := by
  obtain ⟨hpf, _, _, _⟩ := bfsOutOf_facts cid hwf hcurB
  have hidxof : ∀ p : Pos, InBoundsP t.map_size p → p.toIndex t.map_size < t.world_map.length :=
    fun p hp => by rw [hwf.1]; exact toIndex_lt hwf.2.1 hwf.2.2 hp
  have hget : t.world_map.get? (t.current_port.toIndex t.map_size) = some (.Port cid) :=
    get?_of_getD (hidxof _ hcurB) hcur
  have hkeys : ∀ pd ∈ (bfsOutOf t cid).ports, ∃ j,
      t.world_map.get? (pd.1.toIndex t.map_size) = some (.Port j) := by
    intro pd hpd
    obtain ⟨hB, _, j, hP, _⟩ := hpf pd hpd
    exact ⟨j, get?_of_getD (hidxof _ hB) hP⟩
  have hK := keyed?_eq_map hkeys
  have hselfacts : ∀ j1 p1 dmin, minByKeyFirst (fun x : Nat × Pos × Nat => x.1)
      ((bfsOutOf t cid).ports.map
        (fun pd => (pidAt t.world_map t.map_size pd.1, pd.1, pd.2))) = some (j1, p1, dmin) →
      InBoundsP t.map_size p1 ∧ ∃ i, nodeGetD t.world_map t.map_size p1 = .Port i := by
    intro j1 p1 dmin hmin
    obtain ⟨hmem, _⟩ := minByKeyFirst_mem hmin
    obtain ⟨pd, hpd, hpdEq⟩ := List.mem_map.mp hmem
    obtain ⟨hB, _, j, hP, _⟩ := hpf pd hpd
    have h1 : pd.1 = p1 := congrArg (fun x => x.2.1) hpdEq
    rw [h1] at hB hP
    exact ⟨hB, j, hP⟩
  unfold PhoenicianTrader.next
  simp only [hget, hK]
  by_cases hcf : t.first_port = t.current_port
  · rw [if_pos hcf]
    cases hm : maxByKeyLast (fun x : Nat × Pos × Nat => x.1)
        ((bfsOutOf t cid).ports.map
          (fun pd => (pidAt t.world_map t.map_size pd.1, pd.1, pd.2))) with
    | none =>
      exact .inl ⟨{ t with left_ports := (bfsOutOf t cid).leftSelf },
        rfl, rfl, rfl, rfl, rfl⟩
    | some trip =>
      obtain ⟨j0, p0, dmax⟩ := trip
      simp only [selectMin]
      cases hmin : minByKeyFirst (fun x : Nat × Pos × Nat => x.1)
          ((bfsOutOf t cid).ports.map
            (fun pd => (pidAt t.world_map t.map_size pd.1, pd.1, pd.2))) with
      | none =>
        exact .inl ⟨{ t with
            left_ports := (bfsOutOf t cid).leftSelf,
            fuel_cost := t.fuel_cost + dmax }, rfl, rfl, rfl, rfl, rfl⟩
      | some trip2 =>
        obtain ⟨j1, p1, dmin⟩ := trip2
        obtain ⟨hB, i, hP⟩ := hselfacts j1 p1 dmin hmin
        exact .inr ⟨t.fuel_cost + dmax + dmin,
          { t with
            current_port := p1,
            left_ports := ((bfsOutOf t cid).leftSelf).filter (fun q => q ≠ p1),
            fuel_cost := t.fuel_cost + dmax + dmin },
          rfl, rfl, rfl, rfl, hB, i, hP⟩
  · rw [if_neg hcf]
    simp only [selectMin]
    cases hmin : minByKeyFirst (fun x : Nat × Pos × Nat => x.1)
        ((bfsOutOf t cid).ports.map
          (fun pd => (pidAt t.world_map t.map_size pd.1, pd.1, pd.2))) with
    | none =>
      exact .inl ⟨{ t with left_ports := (bfsOutOf t cid).leftSelf },
        rfl, rfl, rfl, rfl, rfl⟩
    | some trip2 =>
      obtain ⟨j1, p1, dmin⟩ := trip2
      obtain ⟨hB, i, hP⟩ := hselfacts j1 p1 dmin hmin
      exact .inr ⟨t.fuel_cost + dmin,
        { t with
          current_port := p1,
          left_ports := ((bfsOutOf t cid).leftSelf).filter (fun q => q ≠ p1),
          fuel_cost := t.fuel_cost + dmin },
        rfl, rfl, rfl, rfl, hB, i, hP⟩

/-! ### The early break against the exhaustive search -/

/-- At the first port the early-break test of the search loop can never
fire, so the loop coincides with its exhaustive variant. -/
theorem bfsLoop_eq_exh_at_first {wm : List WorldMapNode} {ms : Nat × Nat} {cur first : Pos}
    {curId : Nat} (hcf : cur = first) :
    ∀ (fuel : Nat) (v : List (Option Nat)) (q ports : List (Pos × Nat)) (ll ls : List Pos),
      bfsLoop wm ms cur first curId fuel v q ports ll ls =
        bfsLoopExh wm ms cur first curId fuel v q ports ll ls := by
  intro fuel
  induction fuel with
  | zero => intro v q ports ll ls; rw [bfsLoop, bfsLoopExh]
  | succ fuel ih =>
    intro v q ports ll ls
    match q with
    | [] => rw [bfsLoop, bfsLoopExh]
    | (node, dist) :: rest =>
      rw [bfsLoop, bfsLoopExh]
      rw [if_neg (fun h => h.2 hcf)]
      exact ih _ _ _ _ _

/-- Once every reachable strictly-higher port has been collected, the
exhaustive loop only finishes marking cells: the three bookkeeping
lists never change again. -/
theorem bfsLoopExh_frozen {wm : List WorldMapNode} {ms : Nat × Nat} {cur first : Pos}
    {curId : Nat} :
    ∀ (fuel : Nat) (v : List (Option Nat)) (q ports : List (Pos × Nat)) (ll ls : List Pos)
      (out : BfsOut), Inv wm ms cur curId v q ports →
      (∀ p j, InBoundsP ms p → nodeGetD wm ms p = .Port j → j > curId →
        Reachable wm ms cur p → ∃ e, (p, e) ∈ ports) →
      bfsLoopExh wm ms cur first curId fuel v q ports ll ls = out →
      out.ports = ports ∧ out.leftLocal = ll ∧ out.leftSelf = ls := by
  intro fuel
  induction fuel with
  | zero =>
    intro v q ports ll ls out inv hc hout
    rw [bfsLoopExh] at hout
    subst hout
    exact ⟨rfl, rfl, rfl⟩
  | succ fuel ih =>
    intro v q ports ll ls out inv hc hout
    match q with
    | [] =>
      rw [bfsLoopExh] at hout
      subst hout
      exact ⟨rfl, rfl, rfl⟩
    | (node, dist) :: rest =>
      rw [bfsLoopExh] at hout
      have hhd : (node, dist) ∈ (node, dist) :: rest := List.mem_cons_self _ _
      have hnodeB : InBoundsP ms node := inv.hqB _ hhd
      have hnodeV : vAt v ms node = some dist := inv.hq _ hhd
      have hnot : ∀ j, nodeGetD wm ms node = .Port j → ¬j > curId := by
        intro j hj hgt
        have hreach : Reachable wm ms cur node := ⟨dist, (inv.hsound _ _ hnodeB hnodeV).1⟩
        obtain ⟨e, he⟩ := hc node j hnodeB hj hgt hreach
        exact inv.hPQdisj _ he _ hhd rfl
      rcases collect_spec wm ms cur first curId node dist ports ll ls with
        ⟨hceq, _⟩ | ⟨j, hj, hgt, _⟩
      · rw [hceq] at hout
        simp only at hout
        rcases hexp : expand wm ms v rest node dist with ⟨v', q'⟩
        rw [hexp] at hout
        simp only at hout
        obtain ⟨inv', _, _⟩ := inv_step inv (.inl ⟨rfl, hnot⟩) v' q' hexp
        exact ih v' q' ports ll ls out inv' hc hout
      · exact absurd hgt (hnot j hj)

/-- Away from the first port, as long as the loop-local left list
covers every not-yet-collected reachable strictly-higher port, the
early-break loop and the exhaustive loop collect the same `ports` list
(in the same order) and leave the same `self.left_ports`. -/
theorem bfsLoop_sim {wm : List WorldMapNode} {ms : Nat × Nat} {cur first : Pos}
    {curId : Nat} (hne : cur ≠ first) :
    ∀ (fuel : Nat) (v : List (Option Nat)) (q ports : List (Pos × Nat)) (ll ls : List Pos)
      (outL outE : BfsOut), Inv wm ms cur curId v q ports →
      (∀ p j, InBoundsP ms p → nodeGetD wm ms p = .Port j → j > curId →
        Reachable wm ms cur p → p ∈ ll ∨ ∃ e, (p, e) ∈ ports) →
      bfsLoop wm ms cur first curId fuel v q ports ll ls = outL →
      bfsLoopExh wm ms cur first curId fuel v q ports ll ls = outE →
      outL.ports = outE.ports ∧ outL.leftSelf = outE.leftSelf := by
  intro fuel
  induction fuel with
  | zero =>
    intro v q ports ll ls outL outE inv hc houtL houtE
    rw [bfsLoop] at houtL
    rw [bfsLoopExh] at houtE
    subst houtL
    subst houtE
    exact ⟨rfl, rfl⟩
  | succ fuel ih =>
    intro v q ports ll ls outL outE inv hc houtL houtE
    match q with
    | [] =>
      rw [bfsLoop] at houtL
      rw [bfsLoopExh] at houtE
      subst houtL
      subst houtE
      exact ⟨rfl, rfl⟩
    | (node, dist) :: rest =>
      rw [bfsLoop] at houtL
      rw [bfsLoopExh] at houtE
      rcases collect_spec wm ms cur first curId node dist ports ll ls with
        ⟨hceq, hnot⟩ | ⟨j, hj, hgt, hceq⟩
      · rw [hceq] at houtL houtE
        simp only at houtL houtE
        rcases hexp : expand wm ms v rest node dist with ⟨v', q'⟩
        rw [hexp] at houtL houtE
        simp only at houtL houtE
        obtain ⟨inv', _, _⟩ := inv_step inv (.inl ⟨rfl, hnot⟩) v' q' hexp
        by_cases hbr : ll = [] ∧ cur ≠ first
        · rw [if_pos hbr] at houtL
          subst houtL
          have hc' : ∀ p j, InBoundsP ms p → nodeGetD wm ms p = .Port j → j > curId →
              Reachable wm ms cur p → ∃ e, (p, e) ∈ ports := by
            intro p j hB hP hgt hr
            rcases hc p j hB hP hgt hr with hmem | hE
            · exact absurd (hbr.1 ▸ hmem) (List.not_mem_nil _)
            · exact hE
          obtain ⟨hp, _, hs⟩ := bfsLoopExh_frozen fuel v' q' ports ll ls outE inv' hc' houtE
          exact ⟨hp.symm, hs.symm⟩
        · rw [if_neg hbr] at houtL
          exact ih v' q' ports ll ls outL outE inv' hc houtL houtE
      · rw [hceq] at houtL houtE
        simp only at houtL houtE
        simp only [if_neg hne] at houtL houtE
        rcases hexp : expand wm ms v rest node dist with ⟨v', q'⟩
        rw [hexp] at houtL houtE
        simp only at houtL houtE
        obtain ⟨inv', _, _⟩ := inv_step inv (.inr ⟨rfl, j, hj, hgt⟩) v' q' hexp
        have hc' : ∀ p jp, InBoundsP ms p → nodeGetD wm ms p = .Port jp → jp > curId →
            Reachable wm ms cur p →
            p ∈ ll.filter (fun q => q ≠ node) ∨ ∃ e, (p, e) ∈ ports ++ [(node, dist)] := by
          intro p jp hB hP hgt' hr
          rcases hc p jp hB hP hgt' hr with hmem | ⟨e, hE⟩
          · by_cases hpn : p = node
            · subst hpn
              exact .inr ⟨dist, List.mem_append.mpr (.inr (List.mem_singleton.mpr rfl))⟩
            · exact .inl (List.mem_filter.mpr ⟨hmem, by simpa using hpn⟩)
          · exact .inr ⟨e, List.mem_append.mpr (.inl hE)⟩
        by_cases hbr : ll.filter (fun q => q ≠ node) = [] ∧ cur ≠ first
        · rw [if_pos hbr] at houtL
          subst houtL
          have hc'' : ∀ p jp, InBoundsP ms p → nodeGetD wm ms p = .Port jp → jp > curId →
              Reachable wm ms cur p → ∃ e, (p, e) ∈ ports ++ [(node, dist)] := by
            intro p jp hB hP hgt' hr
            rcases hc' p jp hB hP hgt' hr with hmem | hE
            · exact absurd (hbr.1 ▸ hmem) (List.not_mem_nil _)
            · exact hE
          obtain ⟨hp, _, hs⟩ := bfsLoopExh_frozen fuel v' q' (ports ++ [(node, dist)])
            (ll.filter (fun q => q ≠ node)) ls outE inv' hc'' houtE
          exact ⟨hp.symm, hs.symm⟩
        · rw [if_neg hbr] at houtL
          exact ih v' q' (ports ++ [(node, dist)]) (ll.filter (fun q => q ≠ node)) ls
            outL outE inv' hc' houtL houtE

/-- On a good state the early-break search and the exhaustive search
agree on everything the step operation reads: the collected `ports`
list, in order, and the updated `self.left_ports`. -/
theorem good_bfsOut_eq {t : PhoenicianTrader} {cid : Nat} (g : GoodT t cid) :
    (bfsOutOf t cid).ports = (bfsOutExhOf t cid).ports ∧
    (bfsOutOf t cid).leftSelf = (bfsOutExhOf t cid).leftSelf := by
  rcases g.lap with ⟨heq, _⟩ | ⟨hne, _, hcover⟩
  · rw [bfsOutOf, bfsOutExhOf, bfsLoop_eq_exh_at_first heq]
    exact ⟨rfl, rfl⟩
  · obtain ⟨hlen, h1, h2⟩ := g.wf
    have hinv := inv_init cid h1 h2 hlen g.curB
    exact bfsLoop_sim hne _ _ _ _ _ _ _ _ hinv
      (fun p j hB hP hgt hr => .inl (hcover p j hB hP hgt hr)) rfl rfl

/-- On a good state the early-break step operation and the exhaustive
step operation return the same result. -/
theorem good_next_eq_exh {t : PhoenicianTrader} {cid : Nat} (g : GoodT t cid) :
    t.next = t.nextExhaustive := by
  obtain ⟨hp, hs⟩ := good_bfsOut_eq g
  have hidx : t.current_port.toIndex t.map_size < t.world_map.length := by
    rw [g.wf.1]; exact toIndex_lt g.wf.2.1 g.wf.2.2 g.curB
  have hget : t.world_map.get? (t.current_port.toIndex t.map_size) = some (.Port cid) :=
    get?_of_getD hidx g.curPort
  unfold PhoenicianTrader.next PhoenicianTrader.nextExhaustive
  simp only [hget]
  rw [hp, hs]

/-! ### The search in isolation -/



/-- Letting the loop run longer never changes a recorded distance:
each cell is finalized at most once. -/
theorem bfsLoop_visited_mono {wm : List WorldMapNode} {ms : Nat × Nat} {cur first : Pos}
    {curId : Nat} :
    ∀ (fuel fuel' : Nat), fuel ≤ fuel' →
      ∀ (v : List (Option Nat)) (q ports : List (Pos × Nat)) (ll ls : List Pos),
        Inv wm ms cur curId v q ports →
        ∀ i e,
          (bfsLoop wm ms cur first curId fuel v q ports ll ls).visited.getD i none = some e →
          (bfsLoop wm ms cur first curId fuel' v q ports ll ls).visited.getD i none = some e := by
  intro fuel
  induction fuel with
  | zero =>
    intro fuel' _ v q ports ll ls inv i e h
    rw [bfsLoop] at h
    exact (bfsLoop_basic fuel' v q ports ll ls _ inv rfl).1 i e h
  | succ fuel ih =>
    intro fuel' hle v q ports ll ls inv i e h
    obtain ⟨fuel'', rfl⟩ : ∃ k, fuel' = k + 1 := ⟨fuel' - 1, by omega⟩
    have hle' : fuel ≤ fuel'' := by omega
    match q with
    | [] =>
      rw [bfsLoop] at h ⊢
      exact h
    | (node, dist) :: rest =>
      rw [bfsLoop] at h ⊢
      rcases collect_spec wm ms cur first curId node dist ports ll ls with
        ⟨hceq, hnot⟩ | ⟨j, hj, hgt, hceq⟩
      · rw [hceq] at h ⊢
        simp only at h ⊢
        by_cases hbr : ll = [] ∧ cur ≠ first
        · rw [if_pos hbr] at h ⊢
          exact h
        · rw [if_neg hbr] at h ⊢
          rcases hexp : expand wm ms v rest node dist with ⟨v', q'⟩
          rw [hexp] at h
          simp only at h ⊢
          obtain ⟨inv', _, _⟩ := inv_step inv (.inl ⟨rfl, hnot⟩) v' q' hexp
          exact ih fuel'' hle' v' q' ports ll ls inv' i e h
      · rw [hceq] at h ⊢
        simp only at h ⊢
        by_cases hbr : (if cur = first then ll else ll.filter (fun q => q ≠ node)) = [] ∧
            cur ≠ first
        · rw [if_pos hbr] at h ⊢
          exact h
        · rw [if_neg hbr] at h ⊢
          rcases hexp : expand wm ms v rest node dist with ⟨v', q'⟩
          rw [hexp] at h
          simp only at h ⊢
          obtain ⟨inv', _, _⟩ := inv_step inv (.inr ⟨rfl, j, hj, hgt⟩) v' q' hexp
          exact ih fuel'' hle' v' q' (ports ++ [(node, dist)])
            (if cur = first then ll else ll.filter (fun q => q ≠ node))
            (if cur = first then ls ++ [node] else ls) inv' i e h

/-- The contract of the search: source at distance `0`, every recorded
distance is the minimum step-distance, every reachable cell is
recorded, every recorded positive distance is a predecessor's distance
plus one, and recorded distances survive any further iterations. -/
theorem searchFrom_spec {wm : List WorldMapNode} {ms : Nat × Nat} {src : Pos} (curId : Nat)
    (h1 : ms.1 < 2 ^ 31) (h2 : ms.2 < 2 ^ 31) (hlen : wm.length = ms.1 * ms.2)
    (hsrcB : InBoundsP ms src) :
    vAt (searchFrom wm ms src curId).visited ms src = some 0 ∧
    (∀ p d, InBoundsP ms p → vAt (searchFrom wm ms src curId).visited ms p = some d →
      IsShortest wm ms src p d) ∧
    (∀ p, Reachable wm ms src p →
      ∃ d, vAt (searchFrom wm ms src curId).visited ms p = some d ∧
        IsShortest wm ms src p d) ∧
    (∀ p d, InBoundsP ms p →
      vAt (searchFrom wm ms src curId).visited ms p = some (d + 1) →
      ∃ r, p ∈ nbrsOf r ∧ vAt (searchFrom wm ms src curId).visited ms r = some d) ∧
    (∀ fuel fuel', fuel ≤ fuel' → ∀ i e,
      (searchFromFuel wm ms src curId fuel).visited.getD i none = some e →
      (searchFromFuel wm ms src curId fuel').visited.getD i none = some e) := by
  have hinv := inv_init curId h1 h2 hlen hsrcB
  have hidx : src.toIndex ms < ms.1 * ms.2 := toIndex_lt h1 h2 hsrcB
  obtain ⟨hpersist, hsnd, _, _, _⟩ :=
    bfsLoop_basic (ms.1 * ms.2 + 1) _ _ _ [] []
      (searchFrom wm ms src curId) hinv rfl
  have hcn : countNone ((List.replicate (ms.1 * ms.2)
      (none : Option Nat)).set (src.toIndex ms) (some 0)) + 1 = ms.1 * ms.2 := by
    have := countNone_set_some (v := List.replicate (ms.1 * ms.2)
      (none : Option Nat)) (by simpa using hidx) getD_replicate_none 0
    rw [countNone_replicate] at this
    omega
  have hcomp := bfsLoop_complete (ms.1 * ms.2 + 1) _ _ _ [] []
    (searchFrom wm ms src curId) hinv
    (by simp only [List.length_cons, List.length_nil]; omega) rfl
  have hvis : ∀ p m, ReachN wm ms src p m →
      vAt (searchFrom wm ms src curId).visited ms p ≠ none := by
    rcases hcomp with ⟨hv, _⟩ | ⟨hne, _⟩
    · exact hv
    · exact absurd rfl hne
  have hsrc0 : vAt (searchFrom wm ms src curId).visited ms src = some 0 :=
    hpersist _ _ (List.getD_set_self (by simpa using hidx) _ _)
  have hfull : ∀ p, Reachable wm ms src p →
      ∃ d, vAt (searchFrom wm ms src curId).visited ms p = some d ∧
        IsShortest wm ms src p d := by
    intro p ⟨m, hm⟩
    obtain ⟨d, hd⟩ := Option.ne_none_iff_exists'.mp (hvis p m hm)
    have hpB : InBoundsP ms p := by
      rcases reachN_passable_or_src hm with rfl | hpp
      · exact hsrcB
      · exact hpp.1
    exact ⟨d, hd, hsnd p d hpB hd⟩
  refine ⟨hsrc0, hsnd, hfull, ?_, ?_⟩
  · intro p d hpB hpv
    have hsh := hsnd p (d + 1) hpB hpv
    cases hsh.1 with
    | @step r p' k h' hn hp =>
      have hrB : InBoundsP ms r := by
        rcases reachN_passable_or_src h' with rfl | hpp
        · exact hsrcB
        · exact hpp.1
      obtain ⟨d', hd', hsh'⟩ := hfull r ⟨d, h'⟩
      have hd'le : d' ≤ d := hsh'.2 d h'
      have hwalk : ReachN wm ms src p (d' + 1) := .step hsh'.1 hn hp
      have hmin : d + 1 ≤ d' + 1 := hsh.2 (d' + 1) hwalk
      have : d' = d := by omega
      subst this
      exact ⟨r, hn, hd'⟩
  · intro fuel fuel' hle i e h
    exact bfsLoop_visited_mono fuel fuel' hle _ _ _ [] [] hinv i e h

/-! ### Layout of the parsed grid -/

/-- Row parsing produces one cell per character, and every reported
port sits at its scan position with the matching cell in the row. -/
theorem parseRow_spec {y : Nat} :
    ∀ {l : List Char} {x : Nat} {ns : List WorldMapNode} {ps : List (Pos × Nat)},
      parseRow y x l = some (ns, ps) →
      ns.length = l.length ∧
      ∀ pd ∈ ps, ∃ k, k < l.length ∧
        pd.1 = Pos.mk ((x + k : Nat) : Int) ((y : Nat) : Int) ∧
        ns.getD k .Land = .Port pd.2 := by
  intro l
  induction l with
  | nil =>
    intro x ns ps h
    rw [parseRow] at h
    injection h with h
    have h1 : ns = [] := (congrArg Prod.fst h).symm
    have h2 : ps = [] := (congrArg Prod.snd h).symm
    subst h1
    subst h2
    exact ⟨rfl, fun pd hpd => absurd hpd (List.not_mem_nil _)⟩
  | cons c rest ih =>
    intro x ns ps h
    rw [parseRow] at h
    cases hcn : charNode c with
    | none => rw [hcn] at h; cases h
    | some nd =>
      rw [hcn] at h
      cases hrec : parseRow y (x + 1) rest with
      | none => rw [hrec] at h; cases h
      | some pr =>
        rw [hrec] at h
        obtain ⟨ns', ps'⟩ := pr
        simp only [Option.map_some'] at h
        injection h with h
        have h1 : ns = nd :: ns' := (congrArg Prod.fst h).symm
        subst h1
        obtain ⟨ih1, ih2⟩ := ih hrec
        have hlift : ∀ pd ∈ ps', ∃ k, k < (c :: rest).length ∧
            pd.1 = Pos.mk ((x + k : Nat) : Int) ((y : Nat) : Int) ∧
            (nd :: ns').getD k .Land = .Port pd.2 := by
          intro pd hpd
          obtain ⟨k, hk, hpos, hget⟩ := ih2 pd hpd
          refine ⟨k + 1, by simp only [List.length_cons]; omega, ?_, hget⟩
          rw [hpos]
          have hxk : x + 1 + k = x + (k + 1) := by omega
          rw [hxk]
        refine ⟨by simp [ih1], ?_⟩
        cases nd with
        | Water =>
          have h2 : ps = ps' := (congrArg Prod.snd h).symm
          subst h2
          exact hlift
        | Land =>
          have h2 : ps = ps' := (congrArg Prod.snd h).symm
          subst h2
          exact hlift
        | Port d =>
          have h2 : ps = (Pos.mk (x : Int) (y : Int), d) :: ps' :=
            (congrArg Prod.snd h).symm
          subst h2
          intro pd hpd
          rcases List.mem_cons.mp hpd with rfl | hpd'
          · refine ⟨0, by simp, ?_, rfl⟩
            simp
          · exact hlift pd hpd'

/-- Grid parsing with uniform trimmed row width `w`: the flat vector
has `w * rows` cells, and every reported port sits at its
two-dimensional position with the matching cell at the flat index
`row * w + column`. -/
theorem parseGrid_spec {w : Nat} :
    ∀ {lines : List (List Char)} {y : Nat} {wm : List WorldMapNode}
      {ports : List (Pos × Nat)},
      (∀ line ∈ lines, (trimChars line).length = w) →
      parseGrid y lines = some (wm, ports) →
      wm.length = w * lines.length ∧
      ∀ pd ∈ ports, ∃ r k, r < lines.length ∧ k < w ∧
        pd.1 = Pos.mk (k : Int) ((y + r : Nat) : Int) ∧
        wm.getD (r * w + k) .Land = .Port pd.2 := by
  intro lines
  induction lines with
  | nil =>
    intro y wm ports hw h
    rw [parseGrid] at h
    injection h with h
    have h1 : wm = [] := (congrArg Prod.fst h).symm
    have h2 : ports = [] := (congrArg Prod.snd h).symm
    subst h1
    subst h2
    exact ⟨by simp, fun pd hpd => absurd hpd (List.not_mem_nil _)⟩
  | cons line rest ih =>
    intro y wm ports hw h
    rw [parseGrid] at h
    cases hrow : parseRow y 0 (trimChars line) with
    | none => rw [hrow] at h; cases h
    | some pr =>
      rw [hrow] at h
      obtain ⟨ns, ps⟩ := pr
      cases hrec : parseGrid (y + 1) rest with
      | none => rw [hrec] at h; cases h
      | some pr' =>
        rw [hrec] at h
        obtain ⟨wm', ports'⟩ := pr'
        simp only [Option.map_some'] at h
        injection h with h
        have h1 : wm = ns ++ wm' := (congrArg Prod.fst h).symm
        have h2 : ports = ps ++ ports' := (congrArg Prod.snd h).symm
        subst h1
        subst h2
        obtain ⟨hrl, hrp⟩ := parseRow_spec hrow
        have hnsl : ns.length = w := by rw [hrl, hw line (List.mem_cons_self _ _)]
        obtain ⟨ihl, ihp⟩ := ih (fun l hl => hw l (List.mem_cons_of_mem _ hl)) hrec
        constructor
        · rw [List.length_append, hnsl, ihl, List.length_cons, Nat.mul_succ]
          omega
        · intro pd hpd
          rcases List.mem_append.mp hpd with hps | hps'
          · obtain ⟨k, hk, hpos, hget⟩ := hrp pd hps
            rw [hw line (List.mem_cons_self _ _)] at hk
            refine ⟨0, k, by simp, hk, ?_, ?_⟩
            · rw [hpos]
              norm_num
            · rw [Nat.zero_mul, Nat.zero_add,
                List.getD_append _ _ _ _ (by omega)]
              exact hget
          · obtain ⟨r, k, hr, hk, hpos, hget⟩ := ihp pd hps'
            refine ⟨r + 1, k, by simp only [List.length_cons]; omega, hk, ?_, ?_⟩
            · rw [hpos]
              have hyr : y + 1 + r = y + (r + 1) := by omega
              rw [hyr]
            · have hidx : (r + 1) * w + k = ns.length + (r * w + k) := by
                rw [hnsl, Nat.succ_mul]
                omega
              rw [hidx, List.getD_append_right _ _ _ _ (Nat.le_add_right _ _),
                Nat.add_sub_cancel_left]
              exact hget

/-- When the declared size header matches the grid layout (the rows
after the header number `map_size.2` and each trims to `map_size.1`
characters), the parsed trader starts at an in-bounds port, with
`current = first`, an empty lap list and well-formed geometry. -/
theorem fromStr_good {s : String} {t : PhoenicianTrader} (h : fromStr s = .ok t)
    (hw : ∀ line ∈ (rustLines s.data).drop 1, (trimChars line).length = t.map_size.1)
    (hh : ((rustLines s.data).drop 1).length = t.map_size.2)
    (h1 : t.map_size.1 < 2 ^ 31) (h2 : t.map_size.2 < 2 ^ 31) :
    t.current_port = t.first_port ∧ t.left_ports = [] ∧ WFGeom t ∧
    InBoundsP t.map_size t.current_port ∧
    ∃ j, nodeGetD t.world_map t.map_size t.current_port = .Port j := by
  rw [fromStr] at h
  cases hlines : rustLines s.data with
  | nil => simp only [hlines] at h; cases h
  | cons header rest =>
    rw [hlines] at hw hh
    simp only [hlines] at h
    have hw' : ∀ line ∈ rest, (trimChars line).length = t.map_size.1 := hw
    have hh' : rest.length = t.map_size.2 := hh
    cases hhp : headerParse header with
    | none => simp only [hhp] at h; cases h
    | some ms0 =>
      simp only [hhp] at h
      cases hpg : parseGrid 0 rest with
      | none => simp only [hpg] at h; cases h
      | some pr =>
        obtain ⟨wm, ports⟩ := pr
        simp only [hpg] at h
        cases hmin : minByKeyFirst (fun pr => pr.2) ports with
        | none => simp only [hmin] at h; cases h
        | some pe =>
          obtain ⟨pos, e⟩ := pe
          simp only [hmin] at h
          injection h with h
          subst h
          obtain ⟨hmem, _⟩ := minByKeyFirst_mem hmin
          have hh2 : rest.length = ms0.2 := hh'
          obtain ⟨hlen, hpf⟩ := parseGrid_spec (w := ms0.1)
            (fun l hl => hw' l hl) hpg
          obtain ⟨r, k, hr, hk, hpos, hget⟩ := hpf (pos, e) hmem
          simp only at hpos hget
          rw [hh2] at hr
          have hB : InBoundsP ms0 pos := by
            rw [hpos]
            refine ⟨?_, ?_, ?_, ?_⟩
            · show (0 : Int) ≤ ((k : Nat) : Int)
              positivity
            · show ((k : Nat) : Int) < (ms0.1 : Int)
              exact_mod_cast hk
            · show (0 : Int) ≤ ((0 + r : Nat) : Int)
              positivity
            · show ((0 + r : Nat) : Int) < (ms0.2 : Int)
              simp only [Nat.zero_add]
              exact_mod_cast hr
          have hidx : pos.toIndex ms0 = r * ms0.1 + k := by
            rw [toIndex_eq h1 h2 hB, hpos]
            simp
          refine ⟨rfl, rfl, ⟨?_, h1, h2⟩, hB, e, ?_⟩
          · show wm.length = ms0.1 * ms0.2
            rw [hlen, hh2]
          · show wm.getD (pos.toIndex ms0) .Land = .Port e
            rw [hidx]
            exact hget

/-- Along any run from a well-formed start at a port, every state sits
at an in-bounds port on the unchanged map, and no step panics. -/
theorem run_safe {t0 : PhoenicianTrader}
    (hwf : WFGeom t0) (hB0 : InBoundsP t0.map_size t0.current_port)
    (hP0 : ∃ j, nodeGetD t0.world_map t0.map_size t0.current_port = .Port j) :
    ∀ t, RunState t0 t →
      WFGeom t ∧ InBoundsP t.map_size t.current_port ∧
      (∃ j, nodeGetD t.world_map t.map_size t.current_port = .Port j) ∧
      t.next ≠ .panic := by
  have hsafe : ∀ {t : PhoenicianTrader} {j : Nat}, WFGeom t →
      InBoundsP t.map_size t.current_port →
      nodeGetD t.world_map t.map_size t.current_port = .Port j → t.next ≠ .panic := by
    intro t j hwf' hB' hj'
    rcases next_shape hwf' hB' hj' with ⟨t1, he, _⟩ | ⟨c, t2, he, _⟩ <;> rw [he] <;>
      intro hcon <;> cases hcon
  intro t hr
  induction hr with
  | init =>
    obtain ⟨j, hj⟩ := hP0
    exact ⟨hwf, hB0, ⟨j, hj⟩, hsafe hwf hB0 hj⟩
  | @step t c t' hr hy ih =>
    obtain ⟨hwf', hB', ⟨j, hj⟩, _⟩ := ih
    rcases next_shape hwf' hB' hj with ⟨t1, he, _⟩ | ⟨c2, t2, he, hwm, hms, _, hB2, j2, hj2⟩
    · rw [he] at hy; cases hy
    · rw [he] at hy
      injection hy with hc ht
      subst ht
      have hwf2 : WFGeom t2 :=
        ⟨by rw [hwm, hms]; exact hwf'.1, by rw [hms]; exact hwf'.2.1,
          by rw [hms]; exact hwf'.2.2⟩
      have hB2' : InBoundsP t2.map_size t2.current_port := by rw [hms]; exact hB2
      have hj2' : nodeGetD t2.world_map t2.map_size t2.current_port = .Port j2 := by
        rw [hwm, hms]; exact hj2
      exact ⟨hwf2, hB2', ⟨j2, hj2'⟩, hsafe hwf2 hB2' hj2'⟩




/-! ### Sample states for concrete instantiations -/


theorem sampleTrader_init : InitState sampleTrader :=
  ⟨rfl, rfl, by decide, ⟨1, rfl⟩, by decide, by decide⟩

theorem sampleTrader_higher : ∃ q jq, InBoundsP sampleTrader.map_size q ∧
    nodeGetD sampleTrader.world_map sampleTrader.map_size q = .Port jq ∧ 1 < jq ∧
    Reachable sampleTrader.world_map sampleTrader.map_size sampleTrader.current_port q :=
  ⟨⟨1, 0⟩, 2, by decide, rfl, by decide,
    1, .step .refl (by decide) (by decide)⟩


theorem oneTrader_init : InitState oneTrader :=
  ⟨rfl, rfl, by decide, ⟨1, rfl⟩, by decide, by decide⟩

theorem oneTrader_no_higher : ∀ q jq, InBoundsP oneTrader.map_size q →
    nodeGetD oneTrader.world_map oneTrader.map_size q = .Port jq → 1 < jq →
    ¬Reachable oneTrader.world_map oneTrader.map_size oneTrader.current_port q := by
  intro q jq hB hP hgt _
  obtain ⟨hx0, hx1, hy0, hy1⟩ := hB
  have hm1 : ((oneTrader.map_size.1 : Nat) : Int) = 1 := rfl
  have hm2 : ((oneTrader.map_size.2 : Nat) : Int) = 1 := rfl
  rw [hm1] at hx1
  rw [hm2] at hy1
  have hq : q = (⟨0, 0⟩ : Pos) := by
    obtain ⟨qx, qy⟩ := q
    simp only at hx0 hx1 hy0 hy1
    have h1 : qx = 0 := by omega
    have h2 : qy = 0 := by omega
    rw [h1, h2]
  subst hq
  have : (WorldMapNode.Port 1) = .Port jq := hP
  injection this with h
  omega

/-! ### The claims -/

/-- C1: at every state reached in a traversal, when some port with id
strictly greater than the current port id is reachable, the step
operation selects the reachable strictly-higher port with the smallest
id, adds that port's shortest grid-distance `dmin` to the cumulative
fuel cost (on top of the return-leg term `extra`, which is zero away
from the first port), moves the current position onto the selected
port (so the current port id becomes the selected id), and emits the
new cumulative fuel cost. -/
theorem C1_step_selects_minimal_id {t0 t : PhoenicianTrader} {cid : Nat}
    (h0 : InitState t0) (hr : RunState t0 t)
    (hcur : nodeGetD t.world_map t.map_size t.current_port = .Port cid)
    (hhigher : ∃ q jq, InBoundsP t.map_size q ∧
      nodeGetD t.world_map t.map_size q = .Port jq ∧ cid < jq ∧
      Reachable t.world_map t.map_size t.current_port q) :
    ∃ sel selId dmin extra t',
      t.next = .yield (t.fuel_cost + extra + dmin) t' ∧
      t'.current_port = sel ∧
      t'.fuel_cost = t.fuel_cost + extra + dmin ∧
      nodeGetD t.world_map t.map_size sel = .Port selId ∧
      cid < selId ∧
      Reachable t.world_map t.map_size t.current_port sel ∧
      IsShortest t.world_map t.map_size t.current_port sel dmin ∧
      (∀ r jr, InBoundsP t.map_size r → nodeGetD t.world_map t.map_size r = .Port jr →
        cid < jr → Reachable t.world_map t.map_size t.current_port r → selId ≤ jr) ∧
      (t.current_port ≠ t.first_port → extra = 0) := by
  obtain ⟨cid', g⟩ := runState_good h0 hr
  have hcc : cid' = cid := by
    have h2 := g.curPort.symm.trans hcur
    injection h2
  subst hcc
  rcases next_spec g with ⟨hno, _⟩ | ⟨sel, selId, dmin, extra, t', hy, ht', hB, hP, hgt,
    hre, hsh, hminsel, hext0, _, _⟩
  · obtain ⟨q, jq, hB, hP, hgt, hre⟩ := hhigher
    exact absurd hre (hno q jq hB hP hgt)
  · refine ⟨sel, selId, dmin, extra, t', hy, ?_, ?_, hP, hgt, hre, hsh, hminsel, hext0⟩
    · rw [ht']
    · rw [ht']

/-- C1 witness: the sample three-port map, starting at port 1. -/
theorem C1_witness :
    ∃ sel selId dmin extra t',
      sampleTrader.next = .yield (sampleTrader.fuel_cost + extra + dmin) t' ∧
      t'.current_port = sel ∧
      t'.fuel_cost = sampleTrader.fuel_cost + extra + dmin ∧
      nodeGetD sampleTrader.world_map sampleTrader.map_size sel = .Port selId ∧
      1 < selId ∧
      Reachable sampleTrader.world_map sampleTrader.map_size sampleTrader.current_port sel ∧
      IsShortest sampleTrader.world_map sampleTrader.map_size sampleTrader.current_port
        sel dmin ∧
      (∀ r jr, InBoundsP sampleTrader.map_size r →
        nodeGetD sampleTrader.world_map sampleTrader.map_size r = .Port jr →
        1 < jr → Reachable sampleTrader.world_map sampleTrader.map_size
          sampleTrader.current_port r → selId ≤ jr) ∧
      (sampleTrader.current_port ≠ sampleTrader.first_port → extra = 0) :=
  C1_step_selects_minimal_id sampleTrader_init .init rfl sampleTrader_higher

/-- C2: the reachability search (the loop of `next`, run in its
break-free configuration) assigns the source distance `0`, assigns
every reachable cell its minimum step-distance through passable cells
in the four cardinal directions, gives every recorded positive
distance the form "a neighbour's recorded distance plus one", and
finalizes every cell at most once — running the loop longer never
changes a recorded distance. -/
theorem C2_search_correct {wm : List WorldMapNode} {ms : Nat × Nat} {src : Pos} (curId : Nat)
    (h1 : ms.1 < 2 ^ 31) (h2 : ms.2 < 2 ^ 31) (hlen : wm.length = ms.1 * ms.2)
    (hsrcB : InBoundsP ms src) :
    vAt (searchFrom wm ms src curId).visited ms src = some 0 ∧
    (∀ p d, InBoundsP ms p → vAt (searchFrom wm ms src curId).visited ms p = some d →
      IsShortest wm ms src p d) ∧
    (∀ p, Reachable wm ms src p →
      ∃ d, vAt (searchFrom wm ms src curId).visited ms p = some d ∧
        IsShortest wm ms src p d) ∧
    (∀ p d, InBoundsP ms p →
      vAt (searchFrom wm ms src curId).visited ms p = some (d + 1) →
      ∃ r, p ∈ nbrsOf r ∧ vAt (searchFrom wm ms src curId).visited ms r = some d) ∧
    (∀ fuel fuel', fuel ≤ fuel' → ∀ i e,
      (searchFromFuel wm ms src curId fuel).visited.getD i none = some e →
      (searchFromFuel wm ms src curId fuel').visited.getD i none = some e) :=
  searchFrom_spec curId h1 h2 hlen hsrcB

/-- C2 witness: the search on the sample 3×1 all-port row records the
source at distance `0`. -/
theorem C2_witness :
    vAt (searchFrom [.Port 1, .Port 2, .Port 3] (3, 1) ⟨0, 0⟩ 1).visited (3, 1) ⟨0, 0⟩ =
      some 0 :=
  (C2_search_correct 1 (by decide) (by decide) (by decide) (by decide)).1

/-- C3: at every state reached in a traversal whose current position
is the first port's position, when some strictly-higher port is
reachable, the emitted cumulative cost is the old cost plus `extra`
plus `dmin`, where `extra` is the shortest distance to the reachable
strictly-higher port with the largest id (the return leg) and `dmin`
the shortest distance to the one with the smallest id. -/
theorem C3_return_leg_at_first {t0 t : PhoenicianTrader} {cid : Nat}
    (h0 : InitState t0) (hr : RunState t0 t)
    (hcur : nodeGetD t.world_map t.map_size t.current_port = .Port cid)
    (hcf : t.current_port = t.first_port)
    (hhigher : ∃ q jq, InBoundsP t.map_size q ∧
      nodeGetD t.world_map t.map_size q = .Port jq ∧ cid < jq ∧
      Reachable t.world_map t.map_size t.current_port q) :
    ∃ dmin extra t' pmax jmax,
      t.next = .yield (t.fuel_cost + extra + dmin) t' ∧
      t'.fuel_cost = t.fuel_cost + extra + dmin ∧
      InBoundsP t.map_size pmax ∧
      nodeGetD t.world_map t.map_size pmax = .Port jmax ∧
      cid < jmax ∧
      Reachable t.world_map t.map_size t.current_port pmax ∧
      IsShortest t.world_map t.map_size t.current_port pmax extra ∧
      (∀ r jr, InBoundsP t.map_size r → nodeGetD t.world_map t.map_size r = .Port jr →
        cid < jr → Reachable t.world_map t.map_size t.current_port r → jr ≤ jmax) ∧
      (∃ sel selId dmin2, t'.current_port = sel ∧ dmin2 = dmin ∧
        nodeGetD t.world_map t.map_size sel = .Port selId ∧
        IsShortest t.world_map t.map_size t.current_port sel dmin2) := by
  obtain ⟨cid', g⟩ := runState_good h0 hr
  have hcc : cid' = cid := by
    have h2 := g.curPort.symm.trans hcur
    injection h2
  subst hcc
  rcases next_spec g with ⟨hno, _⟩ | ⟨sel, selId, dmin, extra, t', hy, ht', hB, hP, hgt,
    hre, hsh, _, _, hmax, _⟩
  · obtain ⟨q, jq, hB, hP, hgt, hre⟩ := hhigher
    exact absurd hre (hno q jq hB hP hgt)
  · obtain ⟨pmax, jmax, hmB, hmP, hmgt, hmre, hmsh, hmmax⟩ := hmax hcf
    exact ⟨dmin, extra, t', pmax, jmax, hy, by rw [ht'], hmB, hmP, hmgt, hmre, hmsh,
      hmmax, sel, selId, dmin, by rw [ht'], rfl, hP, hsh⟩

/-- C3 witness: on the sample map the first step from port 1 bundles
the return leg. -/
theorem C3_witness :
    ∃ dmin extra t' pmax jmax,
      sampleTrader.next = .yield (sampleTrader.fuel_cost + extra + dmin) t' ∧
      t'.fuel_cost = sampleTrader.fuel_cost + extra + dmin ∧
      InBoundsP sampleTrader.map_size pmax ∧
      nodeGetD sampleTrader.world_map sampleTrader.map_size pmax = .Port jmax ∧
      1 < jmax ∧
      Reachable sampleTrader.world_map sampleTrader.map_size sampleTrader.current_port
        pmax ∧
      IsShortest sampleTrader.world_map sampleTrader.map_size sampleTrader.current_port
        pmax extra ∧
      (∀ r jr, InBoundsP sampleTrader.map_size r →
        nodeGetD sampleTrader.world_map sampleTrader.map_size r = .Port jr →
        1 < jr → Reachable sampleTrader.world_map sampleTrader.map_size
          sampleTrader.current_port r → jr ≤ jmax) ∧
      (∃ sel selId dmin2, t'.current_port = sel ∧ dmin2 = dmin ∧
        nodeGetD sampleTrader.world_map sampleTrader.map_size sel = .Port selId ∧
        IsShortest sampleTrader.world_map sampleTrader.map_size sampleTrader.current_port
          sel dmin2) :=
  C3_return_leg_at_first sampleTrader_init .init rfl rfl sampleTrader_higher

/-- C4: at every state reached in a traversal from which no reachable
port carries an id strictly greater than the current port id, the step
returns the None-shaped `done` result carrying the state itself — the
cumulative fuel cost and every other field are unchanged, and no error
value exists to be returned. -/
theorem C4_done_when_no_higher {t0 t : PhoenicianTrader} {cid : Nat}
    (h0 : InitState t0) (hr : RunState t0 t)
    (hcur : nodeGetD t.world_map t.map_size t.current_port = .Port cid)
    (hno : ∀ q jq, InBoundsP t.map_size q →
      nodeGetD t.world_map t.map_size q = .Port jq → cid < jq →
      ¬Reachable t.world_map t.map_size t.current_port q) :
    t.next = .done t := by
  obtain ⟨cid', g⟩ := runState_good h0 hr
  have hcc : cid' = cid := by
    have h2 := g.curPort.symm.trans hcur
    injection h2
  subst hcc
  rcases next_spec g with ⟨_, hdone⟩ | ⟨sel, selId, dmin, extra, t', hy, _, hB, hP, hgt,
    hre, _, _, _, _, _⟩
  · exact hdone
  · exact absurd hre (hno sel selId hB hP hgt)

/-- C4 witness: the single-port 1×1 map terminates at once, state
untouched. -/
theorem C4_witness : oneTrader.next = .done oneTrader :=
  C4_done_when_no_higher oneTrader_init .init rfl oneTrader_no_higher

/-- C5 (corrected): parsing never produces the error value — its
result is either a panic or a fully constructed trader.  The original
claim's "surfaces each parse failure to the caller as a single failure
value ... and never aborts by panicking" is refuted by the
counterexample: an unrecognized character aborts by panicking. -/
theorem C5_parse_never_err (s : String) :
    fromStr s ≠ .err ∧ (fromStr s = .panic ∨ ∃ t, fromStr s = .ok t) := by
  have hres : fromStr s = .panic ∨ ∃ t, fromStr s = .ok t := by
    rw [fromStr]
    cases rustLines s.data with
    | nil => exact .inl rfl
    | cons header rest =>
      simp only
      cases headerParse header with
      | none => exact .inl rfl
      | some ms =>
        simp only
        cases parseGrid 0 rest with
        | none => exact .inl rfl
        | some pr =>
          obtain ⟨wm, ports⟩ := pr
          simp only
          cases minByKeyFirst (fun pr => pr.2) ports with
          | none => exact .inl rfl
          | some pe =>
            obtain ⟨pos, e⟩ := pe
            exact .inr ⟨_, rfl⟩
  refine ⟨?_, hres⟩
  rcases hres with h | ⟨t, h⟩ <;> rw [h] <;> intro hc <;> cases hc

/-- C5 counterexample: an unrecognized character makes parsing panic
instead of returning a failure value. -/
theorem C5_counterexample : fromStr "2 2\nab" = .panic := by decide

/-- C6 (corrected): the size header is mandatory, not optional — when
the first line is not a parsable `width height` header, parsing panics
instead of inferring the dimensions. -/
theorem C6_header_mandatory {s : String} {header : List Char} {rest : List (List Char)}
    (hl : rustLines s.data = header :: rest) (hh : headerParse header = none) :
    fromStr s = .panic := by
  rw [fromStr]
  simp only [hl, hh]

/-- C6 witness: the single-line map text `1.2` has no header and
parsing panics. -/
theorem C6_witness : fromStr "1.2" = .panic :=
  C6_header_mandatory rfl rfl

/-- C6 counterexample: the header-less 2×2 water map `..\n..` — which
the claim says parses with inferred dimensions — panics. -/
theorem C6_counterexample : fromStr "..\n.." = .panic := by decide

/-- C7 (code bug): on the reference fixture of the repository's own
test `test_go_to_next_port`, parsing panics — the raw string literal
starts with a line break, so the first line handed to the header
parser is empty (and the grid rows also contain `,` characters, which
would hit the invalid-character branch) — so no first step at
position (1,14) with fuel 126 ever happens. -/
theorem C7_fixture_parse_panics : fromStr fixtureInput = .panic := by decide

/-- C8 (corrected): at every state reached in a traversal the step
with the early-break search returns exactly the result of the step
whose search runs to exhaustion.  The original "for every map and
every trader state" is refuted by the counterexample: on a state whose
"ports left in this lap" list is empty away from the first port, the
break fires before anything is searched. -/
theorem C8_break_equals_exhaustive {t0 t : PhoenicianTrader}
    (h0 : InitState t0) (hr : RunState t0 t) :
    t.next = t.nextExhaustive := by
  obtain ⟨cid, g⟩ := runState_good h0 hr
  exact good_next_eq_exh g

/-- C8 witness: on the sample three-port map the two step operations
agree. -/
theorem C8_witness : sampleTrader.next = sampleTrader.nextExhaustive :=
  C8_break_equals_exhaustive sampleTrader_init .init

/-- C8 counterexample: away from the first port with an empty lap
list, the early break ends the sequence although a higher port is
reachable, while the exhaustive search finds it. -/
theorem C8_counterexample :
    (⟨⟨0, 0⟩, ⟨2, 0⟩, [], [.Port 1, .Water, .Port 2], (3, 1), 0⟩ :
        PhoenicianTrader).next ≠
      (⟨⟨0, 0⟩, ⟨2, 0⟩, [], [.Port 1, .Water, .Port 2], (3, 1), 0⟩ :
        PhoenicianTrader).nextExhaustive := by
  decide

/-- C9: the cumulative fuel-cost values emitted by two successive
steps are non-decreasing; each emitted value is the state's cumulative
(natural-number, hence non-negative) fuel cost, at least the previous
state's. -/
theorem C9_fuel_nondecreasing {t t' t'' : PhoenicianTrader} {c c' : Nat}
    (h1 : t.next = .yield c t') (h2 : t'.next = .yield c' t'') :
    c ≤ c' ∧ c = t'.fuel_cost ∧ t.fuel_cost ≤ c ∧ c' = t''.fuel_cost := by
  obtain ⟨he1, hle1⟩ := next_yield_fuel h1
  obtain ⟨he2, hle2⟩ := next_yield_fuel h2
  refine ⟨by omega, he1, hle1, he2⟩

/-- C9 witness: the sample map's two successive steps emit `3` then
`4`. -/
theorem C9_witness :
    (3 : Nat) ≤ 4 ∧
    (3 : Nat) = (⟨⟨1, 0⟩, ⟨0, 0⟩, [⟨2, 0⟩], [.Port 1, .Port 2, .Port 3], (3, 1), 3⟩ :
      PhoenicianTrader).fuel_cost ∧
    sampleTrader.fuel_cost ≤ 3 ∧
    (4 : Nat) = (⟨⟨2, 0⟩, ⟨0, 0⟩, [], [.Port 1, .Port 2, .Port 3], (3, 1), 4⟩ :
      PhoenicianTrader).fuel_cost :=
  C9_fuel_nondecreasing (by decide) (by decide)

/-- C10 (corrected): for every trader produced by parsing a text whose
declared size header matches its grid layout, the cell at the current
position is a Port before and after every step — the "Should be a
port" unreachable branches never execute along the run.  The original
unconditional claim is refuted by the counterexample: a parse whose
header disagrees with the layout yields a trader whose first step
panics. -/
theorem C10_parsed_runs_on_ports {s : String} {t0 : PhoenicianTrader}
    (hok : fromStr s = .ok t0)
    (hw : ∀ line ∈ (rustLines s.data).drop 1, (trimChars line).length = t0.map_size.1)
    (hh : ((rustLines s.data).drop 1).length = t0.map_size.2)
    (h1 : t0.map_size.1 < 2 ^ 31) (h2 : t0.map_size.2 < 2 ^ 31) :
    ∀ t, RunState t0 t →
      (∃ j, nodeGetD t.world_map t.map_size t.current_port = .Port j) ∧
      t.next ≠ .panic := by
  obtain ⟨_, _, hwf, hB, hP⟩ := fromStr_good hok hw hh h1 h2
  intro t hr
  obtain ⟨_, _, hport, hnp⟩ := run_safe hwf hB hP t hr
  exact ⟨hport, hnp⟩

/-- C10 witness: the consistently-sized sample text `1 3\n123` parses
to the sample trader, which starts on a port and steps without
panicking. -/
theorem C10_witness :
    (∃ j, nodeGetD sampleTrader.world_map sampleTrader.map_size
      sampleTrader.current_port = .Port j) ∧
    sampleTrader.next ≠ .panic :=
  C10_parsed_runs_on_ports (s := "1 3\n123") (by decide) (by decide) (by decide)
    (by decide) (by decide) sampleTrader .init

/-- C10 counterexample: the text `2 3\n..\n.1\n..` (header `2 3`, but
three rows of width two) parses to a trader whose very first step
panics: the current cell read back through the declared stride is not
a port. -/
theorem C10_counterexample :
    fromStr "2 3\n..\n.1\n.." =
      .ok ⟨⟨1, 1⟩, ⟨1, 1⟩, [],
        [.Water, .Water, .Water, .Port 1, .Water, .Water], (3, 2), 0⟩ ∧
    (⟨⟨1, 1⟩, ⟨1, 1⟩, [],
        [.Water, .Water, .Water, .Port 1, .Water, .Water], (3, 2), 0⟩ :
      PhoenicianTrader).next = .panic := by
  exact ⟨by decide, by decide⟩

end Phoenicians
